import Mathlib

/-!
Shallow embedding and verification of the discovery engine of the
`account-finding-scraping` repository.

The embedding follows the source scripts:

* `instagram_cli_discovery.py` — the CLI variant: adaptive-depth BFS with a
  frontier queue, a visited set, a capacity cap, a quality-tier policy, a
  near-target cutoff, a cooperative shutdown flag and CSV export
  (namespace `CLI`);
* `instagram_iterative_discovery.py` — the iterative variant: hashtag seed
  enrichment followed by a fixed-depth BFS (namespace `Iter`);
* `instagram_recursive_discovery.py` — the follower-count parser
  `_parse_follower_count` (namespace `Rec`).

Remote calls (`requests.get` plus JSON extraction) are modelled as oracle
functions indexed by the value of the `total_api_calls` counter at the moment
of the call, so an arbitrary sequence of remote responses is covered by
quantifying over the oracle.  The asynchronous `shutdown_requested` flag of
the signal handler is modelled by a schedule `shutdownAt : ℕ → Bool` giving
the value the loop observes at its `n`-th top-of-loop poll.  Fields whose
names end in `Log` are ghost history variables: the Python state has no such
fields, they only record what happened (entries admitted, entries dequeued,
remote calls per iteration, expansion requests) so that temporal properties
can be stated.
-/

set_option linter.unusedVariables false

/-- ProfileData mirrors the `ProfileData` dataclass shared by the discovery
scripts.  `followers` is a natural number (the scripts treat it as a
non-negative count). -/
structure ProfileData where
  username : String
  fullName : String
  followers : ℕ
  following : ℕ
  posts : ℕ
  verified : Bool
  isPrivate : Bool
  profileUrl : String
  discoveryPath : String
  discoveryDepth : ℕ
deriving Repr, DecidableEq

namespace CLI

/-- Entry mirrors the queue dictionaries `{'username': ..., 'depth': ...,
'parent': ...}` of `instagram_cli_discovery.py`. -/
structure Entry where
  username : String
  depth : ℕ
  parent : String
deriving Repr, DecidableEq

/-- Config mirrors the user-configurable knobs of `CLIInstagramDiscovery`:
`TARGET_PROFILES`, `MIN_FOLLOWERS` and `MAX_QUEUE_SIZE`. -/
structure Config where
  target : ℕ
  minFollowers : ℕ
  maxQueue : ℕ
deriving Repr

/-- cliDefault carries the CLI defaults: `--profiles 100`,
`--min-followers 50000`, `MAX_QUEUE_SIZE = 1000`. -/
def cliDefault : Config := ⟨100, 50000, 1000⟩

/-- Oracles models the remote service and the asynchronous interrupt:
`resolve n u` is the outcome of `_get_profile_details(u)` when it is the
`n`-th remote call of the session, `neighbors n u` is the JSON list behind
`_get_similar_accounts(u)` (before the `[:max_accounts]` truncation), and
`shutdownAt i` is the value of `shutdown_requested` observed at the `i`-th
top-of-loop poll of the BFS loop. -/
structure Oracles where
  resolve : ℕ → String → Option ProfileData
  neighbors : ℕ → String → List String
  shutdownAt : ℕ → Bool

/-- St is the session state of `CLIInstagramDiscovery` together with ghost
history fields (`entryLog`, `dequeueLog`, `callLog`, `expLog`). -/
structure St where
  visited : Finset String
  queue : List Entry
  results : List ProfileData
  apiCalls : ℕ
  processed : ℕ
  entryLog : List Entry
  dequeueLog : List Entry
  callLog : List ℕ
  expLog : List (String × List String)

/-- initSt is the state right after `CLIInstagramDiscovery.__init__`. -/
def initSt : St := ⟨∅, [], [], 0, 0, [], [], [], []⟩

/-- pushEntry performs one admission: append a `FrontierEntry` and mark the
identifier visited (lines 450–455 / 555–560 of the CLI script). -/
def pushEntry (s : St) (e : Entry) : St :=
  { s with
    queue := s.queue ++ [e]
    visited := insert e.username s.visited
    entryLog := s.entryLog ++ [e] }

/-- enqueueSeeds mirrors the seed-initialization loop of
`_smart_bfs_discovery` (lines 448–455): every not-yet-visited seed is
admitted at depth 0 with parent `"hashtag"`.  Note there is no capacity
check on this path. -/
def enqueueSeeds (s : St) (seeds : List String) : St :=
  seeds.foldl
    (fun t u => if u ∈ t.visited then t else pushEntry t ⟨u, 0, "hashtag"⟩) s

/-- expandEnqueue mirrors the similar-accounts admission loop
(lines 552–565): each truthy, unvisited username is admitted at
`depth + 1`; after an admission, if the queue has reached
`MAX_QUEUE_SIZE` the loop breaks. -/
def expandEnqueue (cfg : Config) (depth : ℕ) (parent : String) :
    St → List String → St
  | s, [] => s
  | s, u :: us =>
    if u ≠ "" ∧ u ∉ s.visited then
      let t := pushEntry s ⟨u, depth, parent⟩
      if cfg.maxQueue ≤ t.queue.length then t
      else expandEnqueue cfg depth parent t us
    else expandEnqueue cfg depth parent s us


/-- popStep performs the head of one loop iteration (lines 466–470 plus the
`total_api_calls += 1` inside `_get_profile_details`): dequeue the entry,
bump the processed counter, log the dequeue, count the resolve call. -/
def popStep (s : St) (current : Entry) (rest : List Entry) : St :=
  { s with
    queue := rest
    processed := s.processed + 1
    apiCalls := s.apiCalls + 1
    dequeueLog := s.dequeueLog ++ [current] }

/-- mkResult is the qualified `ProfileData` as stored (lines 484–486): the
resolved profile with `discovery_path` and `discovery_depth` filled in. -/
def mkResult (current : Entry) (pd : ProfileData) : ProfileData :=
  { pd with
    discoveryPath := "depth_" ++ toString current.depth
    discoveryDepth := current.depth }

/-- qualifyStep records the profile when it meets the threshold
(lines 483–487). -/
def qualifyStep (cfg : Config) (current : Entry) (pd : ProfileData) (s : St) :
    St :=
  if cfg.minFollowers ≤ pd.followers then
    { s with results := s.results ++ [mkResult current pd] }
  else s

/-- logCall is a ghost step recording how many remote calls the iteration
made (1 = resolve only, 2 = resolve plus similar-accounts). -/
def logCall (n : ℕ) (s : St) : St :=
  { s with callLog := s.callLog ++ [n] }

/-- maxDepthOf is the adaptive depth limit (lines 514–522):
`HIGH_QUALITY_MAX_DEPTH = 3` when the profile meets the threshold,
`LOW_QUALITY_MAX_DEPTH = 1` otherwise. -/
def maxDepthOf (cfg : Config) (pd : ProfileData) : ℕ :=
  if cfg.minFollowers ≤ pd.followers then 3 else 1

/-- expandCount is the adaptive expansion width (lines 532–547):
`HIGH_QUALITY_SIMILAR_ACCOUNTS = 25` at or above the threshold,
`SIMILAR_ACCOUNTS_PER_USER = 15` at or above half the threshold
(`followers >= MIN_FOLLOWERS * 0.5`, i.e. `2 * followers ≥ threshold`),
`LOW_QUALITY_SIMILAR_ACCOUNTS = 8` below that. -/
def expandCount (cfg : Config) (pd : ProfileData) : ℕ :=
  if cfg.minFollowers ≤ pd.followers then 25
  else if cfg.minFollowers ≤ 2 * pd.followers then 15
  else 8

/-- expandCands is the candidate list `_get_similar_accounts` returns
(lines 636–655): the remote response truncated to `max_accounts`. -/
def expandCands (cfg : Config) (orc : Oracles) (current : Entry)
    (pd : ProfileData) (s : St) : List String :=
  (orc.neighbors s.apiCalls current.username).take (expandCount cfg pd)

/-- preExpand counts the similar-accounts remote call and logs the
expansion request (ghost). -/
def preExpand (cfg : Config) (orc : Oracles) (current : Entry)
    (pd : ProfileData) (s : St) : St :=
  { s with
    apiCalls := s.apiCalls + 1
    expLog := s.expLog ++ [(current.username, expandCands cfg orc current pd s)] }

/-- expandStep performs the whole expansion of lines 530–568: one
similar-accounts call followed by the admission loop. -/
def expandStep (cfg : Config) (orc : Oracles) (current : Entry)
    (pd : ProfileData) (s : St) : St :=
  expandEnqueue cfg (current.depth + 1) current.username
    (preExpand cfg orc current pd s) (expandCands cfg orc current pd s)

/-- bfsIter is one iteration of the `while` loop of `_smart_bfs_discovery`
(lines 465–593): dequeue, resolve, record a qualified result, break on
target reached, otherwise decide expansion from the adaptive depth limit,
the queue size and the near-target cutoff (`progress_percent < 80`, written
here as `100 * qualified < 80 * target`, which is the exact meaning of the
float comparison `(qualified / target) * 100 < 80` for the integer ranges
involved), and admit the candidates.  The ghost `callLog` records the
number of remote calls of the iteration. -/
def bfsIter (cfg : Config) (orc : Oracles) (s : St) : St :=
  match s.queue with
  | [] => s
  | current :: rest =>
    match orc.resolve s.apiCalls current.username with
    | none => logCall 1 (popStep s current rest)
    | some pd =>
      let s2 := qualifyStep cfg current pd (popStep s current rest)
      if cfg.minFollowers ≤ pd.followers ∧ cfg.target ≤ s2.results.length then
        logCall 1 s2
      else if current.depth < maxDepthOf cfg pd ∧
          s2.queue.length < cfg.maxQueue ∧
          100 * s2.results.length < 80 * cfg.target then
        logCall 2 (expandStep cfg orc current pd s2)
      else logCall 1 s2

/-- loopGuard is the condition of the BFS `while` loop (line 465): queue
non-empty, target not reached, shutdown flag (observed at this poll) not
set. -/
def loopGuard (cfg : Config) (orc : Oracles) (s : St) : Prop :=
  s.queue ≠ [] ∧ s.results.length < cfg.target ∧
    orc.shutdownAt s.processed = false

instance (cfg : Config) (orc : Oracles) (s : St) :
    Decidable (loopGuard cfg orc s) := by
  unfold loopGuard; infer_instance

/-- bfsLoop runs the BFS loop with explicit fuel; the fuel only majorizes
the iteration count (see the termination theorem), the loop itself exits
when `loopGuard` fails. -/
def bfsLoop (cfg : Config) (orc : Oracles) : ℕ → St → St
  | 0, s => s
  | Nat.succ fuel, s =>
    if loopGuard cfg orc s then bfsLoop cfg orc fuel (bfsIter cfg orc s)
    else s

/-- loopStates collects the state at every top-of-loop poll of `bfsLoop`
(a ghost trace used to state "at no point during the loop" properties). -/
def loopStates (cfg : Config) (orc : Oracles) : ℕ → St → List St
  | 0, s => [s]
  | Nat.succ fuel, s =>
    if loopGuard cfg orc s then s :: loopStates cfg orc fuel (bfsIter cfg orc s)
    else [s]

/-- expandStates collects the successive states of `expandEnqueue`
(a ghost trace: one state per examined candidate, used to state "at no
point during admission" properties). -/
def expandStates (cfg : Config) (depth : ℕ) (parent : String) :
    St → List String → List St
  | s, [] => [s]
  | s, u :: us =>
    if u ≠ "" ∧ u ∉ s.visited then
      let t := pushEntry s ⟨u, depth, parent⟩
      if cfg.maxQueue ≤ t.queue.length then [s, t]
      else s :: expandStates cfg depth parent t us
    else s :: expandStates cfg depth parent s us

/-- smartBfs mirrors one call of `_smart_bfs_discovery(seed_usernames)`:
seed admission followed by the BFS loop. -/
def smartBfs (cfg : Config) (orc : Oracles) (seeds : List String) (fuel : ℕ)
    (s : St) : St :=
  bfsLoop cfg orc fuel (enqueueSeeds s seeds)

/-- runRounds mirrors the round loop of `discover_profiles`: each round
(at most 3 in the script; the list of seed batches is finite here) runs one
`_smart_bfs_discovery` call, guarded by the target and the shutdown flag.
The seed batches are the outputs of the hashtag seed-collection pipeline,
taken as an input of the model. -/
def runRounds (cfg : Config) (orc : Oracles) (fuel : ℕ) :
    List (List String) → St → St
  | [], s => s
  | seeds :: more, s =>
    if s.results.length < cfg.target ∧ orc.shutdownAt s.processed = false then
      runRounds cfg orc fuel more (smartBfs cfg orc seeds fuel s)
    else s

end CLI

namespace CLI

/-! Field-effect lemmas for the admission helpers and iteration stages. -/

theorem pushEntry_untouched (s : St) (e : Entry) :
    (pushEntry s e).results = s.results ∧
    (pushEntry s e).apiCalls = s.apiCalls ∧
    (pushEntry s e).processed = s.processed ∧
    (pushEntry s e).callLog = s.callLog ∧
    (pushEntry s e).expLog = s.expLog ∧
    (pushEntry s e).dequeueLog = s.dequeueLog := by
  simp [pushEntry]

theorem enqueueSeeds_untouched (seeds : List String) (s : St) :
    (enqueueSeeds s seeds).results = s.results ∧
    (enqueueSeeds s seeds).apiCalls = s.apiCalls ∧
    (enqueueSeeds s seeds).processed = s.processed ∧
    (enqueueSeeds s seeds).callLog = s.callLog ∧
    (enqueueSeeds s seeds).expLog = s.expLog ∧
    (enqueueSeeds s seeds).dequeueLog = s.dequeueLog := by
  induction seeds generalizing s with
  | nil => simp [enqueueSeeds]
  | cons u us ih =>
    by_cases h : u ∈ s.visited
    · simpa [enqueueSeeds, List.foldl_cons, h] using ih s
    · have := ih (pushEntry s ⟨u, 0, "hashtag"⟩)
      simpa [enqueueSeeds, List.foldl_cons, h, pushEntry] using this

theorem expandEnqueue_untouched (cfg : Config) (d : ℕ) (p : String)
    (us : List String) (s : St) :
    (expandEnqueue cfg d p s us).results = s.results ∧
    (expandEnqueue cfg d p s us).apiCalls = s.apiCalls ∧
    (expandEnqueue cfg d p s us).processed = s.processed ∧
    (expandEnqueue cfg d p s us).callLog = s.callLog ∧
    (expandEnqueue cfg d p s us).expLog = s.expLog ∧
    (expandEnqueue cfg d p s us).dequeueLog = s.dequeueLog := by
  induction us generalizing s with
  | nil => simp [expandEnqueue]
  | cons u us ih =>
    by_cases h : u ≠ "" ∧ u ∉ s.visited
    · by_cases hc : cfg.maxQueue ≤ s.queue.length + 1
      · simp [expandEnqueue, h, hc, pushEntry]
      · have := ih (pushEntry s ⟨u, d, p⟩)
        simp only [pushEntry] at this
        simp [expandEnqueue, h, hc, pushEntry, this]
    · simpa [expandEnqueue, h] using ih s

theorem pushEntry_visited_subset (s : St) (e : Entry) :
    s.visited ⊆ (pushEntry s e).visited := by
  intro x hx
  simp only [pushEntry, Finset.mem_insert]
  right; exact hx

theorem enqueueSeeds_visited_subset (seeds : List String) (s : St) :
    s.visited ⊆ (enqueueSeeds s seeds).visited := by
  induction seeds generalizing s with
  | nil => simp [enqueueSeeds]
  | cons u us ih =>
    by_cases h : u ∈ s.visited
    · simpa [enqueueSeeds, List.foldl_cons, h] using ih s
    · refine Finset.Subset.trans (pushEntry_visited_subset s ⟨u, 0, "hashtag"⟩) ?_
      simpa [enqueueSeeds, List.foldl_cons, h] using
        ih (pushEntry s ⟨u, 0, "hashtag"⟩)

theorem expandEnqueue_visited_subset (cfg : Config) (d : ℕ) (p : String)
    (us : List String) (s : St) :
    s.visited ⊆ (expandEnqueue cfg d p s us).visited := by
  induction us generalizing s with
  | nil => simp [expandEnqueue]
  | cons u us ih =>
    by_cases h : u ≠ "" ∧ u ∉ s.visited
    · by_cases hc : cfg.maxQueue ≤ s.queue.length + 1
      · have he : expandEnqueue cfg d p s (u :: us) = pushEntry s ⟨u, d, p⟩ := by
          simp [expandEnqueue, h, hc, pushEntry]
        rw [he]
        exact pushEntry_visited_subset s ⟨u, d, p⟩
      · have he : expandEnqueue cfg d p s (u :: us) =
            expandEnqueue cfg d p (pushEntry s ⟨u, d, p⟩) us := by
          simp [expandEnqueue, h, hc, pushEntry]
        rw [he]
        exact Finset.Subset.trans (pushEntry_visited_subset s ⟨u, d, p⟩)
          (ih (pushEntry s ⟨u, d, p⟩))
    · simp only [expandEnqueue, if_neg h]
      exact ih s

theorem popStep_visited (s : St) (c : Entry) (rest : List Entry) :
    (popStep s c rest).visited = s.visited := rfl

theorem qualifyStep_visited (cfg : Config) (c : Entry) (pd : ProfileData)
    (s : St) : (qualifyStep cfg c pd s).visited = s.visited := by
  unfold qualifyStep; split <;> rfl

theorem logCall_visited (n : ℕ) (s : St) : (logCall n s).visited = s.visited := rfl

theorem preExpand_visited (cfg : Config) (orc : Oracles) (c : Entry)
    (pd : ProfileData) (s : St) :
    (preExpand cfg orc c pd s).visited = s.visited := rfl

theorem expandStep_visited_subset (cfg : Config) (orc : Oracles) (c : Entry)
    (pd : ProfileData) (s : St) :
    s.visited ⊆ (expandStep cfg orc c pd s).visited := by
  unfold expandStep
  have h := expandEnqueue_visited_subset cfg (c.depth + 1) c.username
    (expandCands cfg orc c pd s) (preExpand cfg orc c pd s)
  rw [preExpand_visited] at h
  exact h

theorem bfsIter_visited_subset (cfg : Config) (orc : Oracles) (s : St) :
    s.visited ⊆ (bfsIter cfg orc s).visited := by
  rcases hq : s.queue with _ | ⟨c, rest⟩
  · simp [bfsIter, hq]
  · rcases hr : orc.resolve s.apiCalls c.username with _ | pd
    · simp only [bfsIter, hq, hr]
      rw [logCall_visited, popStep_visited]
    · simp only [bfsIter, hq, hr]
      split_ifs
      · rw [logCall_visited, qualifyStep_visited, popStep_visited]
      · rw [logCall_visited]
        have h := expandStep_visited_subset cfg orc c pd
          (qualifyStep cfg c pd (popStep s c rest))
        rw [qualifyStep_visited, popStep_visited] at h
        exact h
      · rw [logCall_visited, qualifyStep_visited, popStep_visited]

theorem bfsLoop_visited_subset (cfg : Config) (orc : Oracles) (fuel : ℕ)
    (s : St) : s.visited ⊆ (bfsLoop cfg orc fuel s).visited := by
  induction fuel generalizing s with
  | zero => exact subset_rfl
  | succ fuel ih =>
    by_cases hg : loopGuard cfg orc s
    · simp only [bfsLoop, if_pos hg]
      exact Finset.Subset.trans (bfsIter_visited_subset cfg orc s)
        (ih (bfsIter cfg orc s))
    · simp only [bfsLoop, if_neg hg]
      exact subset_rfl

theorem runRounds_visited_subset (cfg : Config) (orc : Oracles) (fuel : ℕ)
    (seedss : List (List String)) (s : St) :
    s.visited ⊆ (runRounds cfg orc fuel seedss s).visited := by
  induction seedss generalizing s with
  | nil => exact subset_rfl
  | cons seeds more ih =>
    by_cases hg : s.results.length < cfg.target ∧ orc.shutdownAt s.processed = false
    · simp only [runRounds, if_pos hg]
      refine Finset.Subset.trans ?_ (ih (smartBfs cfg orc seeds fuel s))
      unfold smartBfs
      exact Finset.Subset.trans (enqueueSeeds_visited_subset seeds s)
        (bfsLoop_visited_subset cfg orc fuel (enqueueSeeds s seeds))
    · simp only [runRounds, if_neg hg]
      exact subset_rfl

end CLI

namespace CLI

/-- AdmInv is the admission-control invariant: the dequeue log and the
queue partition the log of all entries ever admitted, admitted usernames
are pairwise distinct, and every admitted username is in the visited set. -/
def AdmInv (s : St) : Prop :=
  s.dequeueLog ++ s.queue = s.entryLog ∧
  (s.entryLog.map Entry.username).Nodup ∧
  ∀ e ∈ s.entryLog, e.username ∈ s.visited

theorem pushEntry_admInv {s : St} {e : Entry} (hu : e.username ∉ s.visited)
    (h : AdmInv s) : AdmInv (pushEntry s e) := by
  obtain ⟨h1, h2, h3⟩ := h
  refine ⟨?_, ?_, ?_⟩
  · simp only [pushEntry, ← List.append_assoc, h1]
  · simp only [pushEntry, List.map_append, List.map_cons, List.map_nil]
    rw [List.nodup_append]
    refine ⟨h2, List.nodup_singleton _, ?_⟩
    intro a ha hb
    simp only [List.mem_singleton] at hb
    subst hb
    simp only [List.mem_map] at ha
    obtain ⟨e', he', heq⟩ := ha
    exact hu (heq ▸ h3 e' he')
  · intro e' he'
    simp only [pushEntry, List.mem_append, List.mem_singleton] at he' ⊢
    rcases he' with he' | rfl
    · exact Finset.mem_insert_of_mem (h3 e' he')
    · exact Finset.mem_insert_self _ _

theorem enqueueSeeds_admInv {s : St} (seeds : List String)
    (h : AdmInv s) : AdmInv (enqueueSeeds s seeds) := by
  induction seeds generalizing s with
  | nil => simpa [enqueueSeeds] using h
  | cons u us ih =>
    by_cases hv : u ∈ s.visited
    · have : enqueueSeeds s (u :: us) = enqueueSeeds s us := by
        simp [enqueueSeeds, List.foldl_cons, hv]
      rw [this]; exact ih h
    · have : enqueueSeeds s (u :: us) =
          enqueueSeeds (pushEntry s ⟨u, 0, "hashtag"⟩) us := by
        simp [enqueueSeeds, List.foldl_cons, hv]
      rw [this]; exact ih (pushEntry_admInv hv h)

theorem expandEnqueue_admInv {s : St} (cfg : Config) (d : ℕ) (p : String)
    (us : List String) (h : AdmInv s) : AdmInv (expandEnqueue cfg d p s us) := by
  induction us generalizing s with
  | nil => simpa [expandEnqueue] using h
  | cons u us ih =>
    by_cases hcond : u ≠ "" ∧ u ∉ s.visited
    · by_cases hc : cfg.maxQueue ≤ s.queue.length + 1
      · have he : expandEnqueue cfg d p s (u :: us) = pushEntry s ⟨u, d, p⟩ := by
          simp [expandEnqueue, hcond, hc, pushEntry]
        rw [he]; exact pushEntry_admInv hcond.2 h
      · have he : expandEnqueue cfg d p s (u :: us) =
            expandEnqueue cfg d p (pushEntry s ⟨u, d, p⟩) us := by
          simp [expandEnqueue, hcond, hc, pushEntry]
        rw [he]; exact ih (pushEntry_admInv hcond.2 h)
    · simp only [expandEnqueue, if_neg hcond]
      exact ih h

theorem qualifyStep_fields (cfg : Config) (c : Entry) (pd : ProfileData)
    (s : St) :
    (qualifyStep cfg c pd s).visited = s.visited ∧
    (qualifyStep cfg c pd s).queue = s.queue ∧
    (qualifyStep cfg c pd s).apiCalls = s.apiCalls ∧
    (qualifyStep cfg c pd s).processed = s.processed ∧
    (qualifyStep cfg c pd s).entryLog = s.entryLog ∧
    (qualifyStep cfg c pd s).dequeueLog = s.dequeueLog ∧
    (qualifyStep cfg c pd s).callLog = s.callLog ∧
    (qualifyStep cfg c pd s).expLog = s.expLog := by
  unfold qualifyStep
  split <;> simp

/-- Inv is the full session invariant: admission control plus the counter
bookkeeping (one dequeue-log entry and one call-log entry per iteration,
call-log summing to the remote-call counter, at most two remote calls per
iteration). -/
def Inv (s : St) : Prop :=
  AdmInv s ∧
  s.dequeueLog.length = s.processed ∧
  s.callLog.length = s.processed ∧
  s.callLog.sum = s.apiCalls ∧
  ∀ n ∈ s.callLog, n ≤ 2

theorem initSt_inv : Inv initSt := by
  refine ⟨⟨?_, ?_, ?_⟩, ?_, ?_, ?_, ?_⟩ <;> simp [initSt, AdmInv]

theorem enqueueSeeds_inv {s : St} (seeds : List String) (h : Inv s) :
    Inv (enqueueSeeds s seeds) := by
  obtain ⟨ha, h1, h2, h3, h4⟩ := h
  obtain ⟨-, -, -, hcl, hel, hdl⟩ := enqueueSeeds_untouched seeds s
  have hap := (enqueueSeeds_untouched seeds s).2.1
  have hpr := (enqueueSeeds_untouched seeds s).2.2.1
  exact ⟨enqueueSeeds_admInv seeds ha, by rw [hdl, hpr]; exact h1,
    by rw [hcl, hpr]; exact h2, by rw [hcl, hap]; exact h3,
    by rw [hcl]; exact h4⟩

theorem bfsIter_inv {cfg : Config} {orc : Oracles} {s : St} (h : Inv s) :
    Inv (bfsIter cfg orc s) := by
  obtain ⟨⟨ha1, ha2, ha3⟩, h1, h2, h3, h4⟩ := h
  rcases hq : s.queue with _ | ⟨c, rest⟩
  · simpa [bfsIter, hq] using ⟨⟨ha1, ha2, ha3⟩, h1, h2, h3, h4⟩
  · rcases hr : orc.resolve s.apiCalls c.username with _ | pd
    · simp only [bfsIter, hq, hr]
      refine ⟨⟨?_, ?_, ?_⟩, ?_, ?_, ?_, ?_⟩
      · simp only [logCall, popStep, List.append_assoc, List.singleton_append]
        rw [← hq]; exact ha1
      · simpa [logCall, popStep] using ha2
      · simpa [logCall, popStep] using ha3
      · simp [logCall, popStep, h1]
      · simp [logCall, popStep, h2]
      · simp [logCall, popStep, h3]
      · intro n hn
        simp only [logCall, popStep, List.mem_append, List.mem_singleton] at hn
        rcases hn with hn | rfl
        · exact h4 n hn
        · omega
    · simp only [bfsIter, hq, hr]
      have hpop : AdmInv (popStep s c rest) := by
        refine ⟨?_, ?_, ?_⟩
        · simp only [popStep, List.append_assoc, List.singleton_append]
          rw [← hq]; exact ha1
        · simpa [popStep] using ha2
        · simpa [popStep] using ha3
      have hqual : AdmInv (qualifyStep cfg c pd (popStep s c rest)) := by
        unfold qualifyStep
        split <;> simpa [popStep] using hpop
      have hone : Inv (logCall 1 (qualifyStep cfg c pd (popStep s c rest))) := by
        refine ⟨?_, ?_, ?_, ?_, ?_⟩
        · simpa [AdmInv, logCall] using hqual
        · simp only [logCall, qualifyStep, popStep]
          split <;> simp [h1]
        · simp only [logCall, qualifyStep, popStep]
          split <;> simp [h2]
        · simp only [logCall, qualifyStep, popStep]
          split <;> simp [h3]
        · intro n hn
          simp only [logCall, qualifyStep, popStep] at hn
          split at hn <;>
            (simp only [List.mem_append, List.mem_singleton] at hn;
             rcases hn with hn | rfl; exacts [h4 n hn, by omega])
      split_ifs
      · exact hone
      · -- expansion branch
        set s2 := qualifyStep cfg c pd (popStep s c rest) with hs2
        have hpre : AdmInv (preExpand cfg orc c pd s2) := by
          simpa [AdmInv, preExpand] using hqual
        have hexp : AdmInv (expandStep cfg orc c pd s2) :=
          expandEnqueue_admInv cfg (c.depth + 1) c.username
            (expandCands cfg orc c pd s2) hpre
        obtain ⟨hr2, ha2', hp2, hcl2, hel2, hdl2⟩ :=
          expandEnqueue_untouched cfg (c.depth + 1) c.username
            (expandCands cfg orc c pd s2) (preExpand cfg orc c pd s2)
        have hq2 := qualifyStep_fields cfg c pd (popStep s c rest)
        refine ⟨?_, ?_, ?_, ?_, ?_⟩
        · simpa [AdmInv, logCall] using hexp
        · show (logCall 2 (expandStep cfg orc c pd s2)).dequeueLog.length =
            (logCall 2 (expandStep cfg orc c pd s2)).processed
          simp only [logCall, expandStep]
          rw [hdl2, hp2]
          simp only [preExpand, hs2]
          rw [hq2.2.2.2.2.2.1, hq2.2.2.2.1]
          simp [popStep, h1]
        · show (logCall 2 (expandStep cfg orc c pd s2)).callLog.length =
            (logCall 2 (expandStep cfg orc c pd s2)).processed
          simp only [logCall, expandStep]
          rw [hcl2, hp2]
          simp only [preExpand, hs2]
          rw [hq2.2.2.2.2.2.2.1, hq2.2.2.2.1]
          simp [popStep, h2]
        · show (logCall 2 (expandStep cfg orc c pd s2)).callLog.sum =
            (logCall 2 (expandStep cfg orc c pd s2)).apiCalls
          simp only [logCall, expandStep]
          rw [hcl2, ha2']
          simp only [preExpand, hs2]
          rw [hq2.2.2.2.2.2.2.1, hq2.2.2.1]
          simp [popStep, h3]
        · intro n hn
          simp only [logCall, expandStep] at hn
          rw [hcl2] at hn
          simp only [preExpand, hs2] at hn
          rw [hq2.2.2.2.2.2.2.1] at hn
          simp only [popStep, List.mem_append, List.mem_singleton] at hn
          rcases hn with hn | rfl
          · exact h4 n hn
          · omega
      · exact hone

end CLI

namespace CLI

theorem bfsLoop_inv {cfg : Config} {orc : Oracles} (fuel : ℕ) {s : St}
    (h : Inv s) : Inv (bfsLoop cfg orc fuel s) := by
  induction fuel generalizing s with
  | zero => exact h
  | succ fuel ih =>
    by_cases hg : loopGuard cfg orc s
    · simp only [bfsLoop, if_pos hg]
      exact ih (bfsIter_inv h)
    · simpa only [bfsLoop, if_neg hg] using h

theorem smartBfs_inv {cfg : Config} {orc : Oracles} (seeds : List String)
    (fuel : ℕ) {s : St} (h : Inv s) : Inv (smartBfs cfg orc seeds fuel s) :=
  bfsLoop_inv fuel (enqueueSeeds_inv seeds h)

theorem runRounds_inv {cfg : Config} {orc : Oracles} (fuel : ℕ)
    (seedss : List (List String)) {s : St} (h : Inv s) :
    Inv (runRounds cfg orc fuel seedss s) := by
  induction seedss generalizing s with
  | nil => exact h
  | cons seeds more ih =>
    by_cases hg : s.results.length < cfg.target ∧ orc.shutdownAt s.processed = false
    · simp only [runRounds, if_pos hg]
      exact ih (smartBfs_inv seeds fuel h)
    · simpa only [runRounds, if_neg hg] using h

theorem inv_entryLog_card {s : St} (h : Inv s) :
    s.entryLog.length ≤ s.visited.card := by
  obtain ⟨⟨-, h2, h3⟩, -, -, -, -⟩ := h
  have hsub : (s.entryLog.map Entry.username).toFinset ⊆ s.visited := by
    intro x hx
    simp only [List.mem_toFinset, List.mem_map] at hx
    obtain ⟨e, he, rfl⟩ := hx
    exact h3 e he
  calc s.entryLog.length = (s.entryLog.map Entry.username).length := by simp
    _ = (s.entryLog.map Entry.username).toFinset.card :=
        (List.toFinset_card_of_nodup h2).symm
    _ ≤ s.visited.card := Finset.card_le_card hsub

theorem inv_processed_le {s : St} (h : Inv s) :
    s.processed ≤ s.entryLog.length := by
  obtain ⟨⟨h1, -, -⟩, hd, -, -, -⟩ := h
  have := congrArg List.length h1
  simp only [List.length_append] at this
  omega

end CLI

namespace CLI

/-- C2: during one session (seed admissions in any number of rounds plus
expansion admissions), no identifier is ever placed into more than one
frontier entry.  Both admission sites admit an identifier only when it is
not in the visited set and insert it into the visited set in the same
step (`pushEntry`), and the visited set never shrinks at any granularity
(single iteration, loop, whole multi-round run); consequently the
usernames of all frontier entries ever created are pairwise distinct and
the number of entries ever created is at most the size of the visited
set. -/
theorem c2_dedup_invariant :
    (∀ cfg orc s, s.visited ⊆ (bfsIter cfg orc s).visited) ∧
    (∀ cfg orc fuel s, s.visited ⊆ (bfsLoop cfg orc fuel s).visited) ∧
    (∀ cfg orc fuel seedss s,
      s.visited ⊆ (runRounds cfg orc fuel seedss s).visited) ∧
    (∀ cfg orc fuel seedss,
      ((runRounds cfg orc fuel seedss initSt).entryLog.map
          Entry.username).Nodup ∧
      (runRounds cfg orc fuel seedss initSt).entryLog.length ≤
        (runRounds cfg orc fuel seedss initSt).visited.card) := by
  refine ⟨bfsIter_visited_subset, bfsLoop_visited_subset,
    runRounds_visited_subset, ?_⟩
  intro cfg orc fuel seedss
  have h := @runRounds_inv cfg orc fuel seedss initSt initSt_inv
  exact ⟨h.1.2.1, inv_entryLog_card h⟩

end CLI

namespace CLI

theorem enqueueSeeds_length_of_new (seeds : List String) (s : St)
    (hnd : seeds.Nodup) (hnv : ∀ u ∈ seeds, u ∉ s.visited) :
    (enqueueSeeds s seeds).queue.length = s.queue.length + seeds.length := by
  induction seeds generalizing s with
  | nil => simp [enqueueSeeds]
  | cons u us ih =>
    have hu : u ∉ s.visited := hnv u (by simp)
    have he : enqueueSeeds s (u :: us) =
        enqueueSeeds (pushEntry s ⟨u, 0, "hashtag"⟩) us := by
      simp [enqueueSeeds, List.foldl_cons, hu]
    rw [he, ih (pushEntry s ⟨u, 0, "hashtag"⟩) hnd.of_cons]
    · simp [pushEntry]
      omega
    · intro v hv
      simp only [pushEntry, Finset.mem_insert, not_or]
      exact ⟨fun hvu => (List.nodup_cons.mp hnd).1 (hvu ▸ hv),
        hnv v (by simp [hv])⟩

/-- overflowSeeds is a batch of 1001 pairwise-distinct identifiers, as a
seed provider may deliver across the initial hashtag pages. -/
def overflowSeeds : List String :=
  (List.range 1001).map (fun n => String.mk (List.replicate (n + 1) 'a'))

theorem overflowSeeds_nodup : overflowSeeds.Nodup := by
  refine List.Nodup.map ?_ (List.nodup_range 1001)
  intro n m h
  have := congrArg String.length h
  simpa [String.length] using this

theorem overflowSeeds_length : overflowSeeds.length = 1001 := by
  simp [overflowSeeds]

/-- stopOracles is a session in which the operator interrupt arrives before
the BFS loop starts (every poll observes the flag set); seed admission has
already happened at that point. -/
def stopOracles : Oracles :=
  ⟨fun _ _ => none, fun _ _ => [], fun _ => true⟩

/-- C4, counterexample: the claim asserts the frontier never exceeds the
capacity cap for every possible sequence of seed-provider and
neighbor-provider responses.  The seed-admission loop of
`_smart_bfs_discovery` (lines 448–455) has no capacity check, so a seed
batch of 1001 distinct identifiers drives the queue to 1001 > 1000 within
a run under the default configuration. -/
theorem c4_capacity_counterexample :
    cliDefault.maxQueue = 1000 ∧
    (smartBfs cliDefault stopOracles overflowSeeds 5 initSt).queue.length =
      1001 := by
  refine ⟨rfl, ?_⟩
  have hlen := enqueueSeeds_length_of_new overflowSeeds initSt
    overflowSeeds_nodup (by simp [initSt])
  have hguard : ¬ loopGuard cliDefault stopOracles
      (enqueueSeeds initSt overflowSeeds) := by
    simp [loopGuard, stopOracles]
  show (bfsLoop cliDefault stopOracles 5
      (enqueueSeeds initSt overflowSeeds)).queue.length = 1001
  simp only [bfsLoop, if_neg hguard]
  rw [hlen, overflowSeeds_length]
  simp [initSt]

theorem expandEnqueue_length_le {cfg : Config} (d : ℕ) (p : String)
    (us : List String) (s : St) (h : s.queue.length < cfg.maxQueue) :
    (expandEnqueue cfg d p s us).queue.length ≤ cfg.maxQueue := by
  induction us generalizing s with
  | nil => simp only [expandEnqueue]; exact h.le
  | cons u us ih =>
    by_cases hcond : u ≠ "" ∧ u ∉ s.visited
    · by_cases hc : cfg.maxQueue ≤ s.queue.length + 1
      · have he : expandEnqueue cfg d p s (u :: us) = pushEntry s ⟨u, d, p⟩ := by
          simp [expandEnqueue, hcond, hc, pushEntry]
        rw [he]
        simp only [pushEntry, List.length_append, List.length_cons,
          List.length_nil]
        omega
      · have he : expandEnqueue cfg d p s (u :: us) =
            expandEnqueue cfg d p (pushEntry s ⟨u, d, p⟩) us := by
          simp [expandEnqueue, hcond, hc, pushEntry]
        rw [he]
        refine ih (pushEntry s ⟨u, d, p⟩) ?_
        simp only [pushEntry, List.length_append, List.length_cons,
          List.length_nil]
        omega
    · simp only [expandEnqueue, if_neg hcond]
      exact ih s h

theorem expandStates_length_le {cfg : Config} (d : ℕ) (p : String)
    (us : List String) (s : St) (h : s.queue.length < cfg.maxQueue) :
    ∀ t ∈ expandStates cfg d p s us, t.queue.length ≤ cfg.maxQueue := by
  induction us generalizing s with
  | nil =>
    intro t ht
    simp only [expandStates, List.mem_singleton] at ht
    subst ht; exact h.le
  | cons u us ih =>
    intro t ht
    by_cases hcond : u ≠ "" ∧ u ∉ s.visited
    · by_cases hc : cfg.maxQueue ≤ s.queue.length + 1
      · have he : expandStates cfg d p s (u :: us) =
            [s, pushEntry s ⟨u, d, p⟩] := by
          simp [expandStates, hcond, hc, pushEntry]
        rw [he] at ht
        simp only [List.mem_cons, List.mem_singleton, List.not_mem_nil,
          or_false] at ht
        rcases ht with rfl | rfl
        · exact h.le
        · simp only [pushEntry, List.length_append, List.length_cons,
            List.length_nil]
          omega
      · have he : expandStates cfg d p s (u :: us) =
            s :: expandStates cfg d p (pushEntry s ⟨u, d, p⟩) us := by
          simp [expandStates, hcond, hc, pushEntry]
        rw [he] at ht
        rcases List.mem_cons.mp ht with rfl | ht
        · exact h.le
        · refine ih (pushEntry s ⟨u, d, p⟩) ?_ t ht
          simp only [pushEntry, List.length_append, List.length_cons,
            List.length_nil]
          omega
    · have he : expandStates cfg d p s (u :: us) =
          s :: expandStates cfg d p s us := by
        simp [expandStates, hcond]
      rw [he] at ht
      rcases List.mem_cons.mp ht with rfl | ht
      · exact h.le
      · exact ih s h t ht

theorem bfsIter_length_le {cfg : Config} {orc : Oracles} {s : St}
    (h : s.queue.length ≤ cfg.maxQueue) :
    (bfsIter cfg orc s).queue.length ≤ cfg.maxQueue := by
  rcases hq : s.queue with _ | ⟨c, rest⟩
  · simp only [bfsIter, hq]
    rw [hq] at h; exact h
  · have hrest : rest.length ≤ cfg.maxQueue := by
      rw [hq] at h; simp only [List.length_cons] at h; omega
    rcases hr : orc.resolve s.apiCalls c.username with _ | pd
    · simp only [bfsIter, hq, hr, logCall, popStep]
      exact hrest
    · simp only [bfsIter, hq, hr]
      split_ifs with h1 h2
      · simp only [logCall, qualifyStep, popStep]
        split <;> exact hrest
      · simp only [logCall, expandStep]
        obtain ⟨-, -, -, -, -, -⟩ :=
          expandEnqueue_untouched cfg (c.depth + 1) c.username
            (expandCands cfg orc c pd
              (qualifyStep cfg c pd (popStep s c rest)))
            (preExpand cfg orc c pd
              (qualifyStep cfg c pd (popStep s c rest)))
        refine expandEnqueue_length_le (c.depth + 1) c.username _ _ ?_
        have hq2 := (qualifyStep_fields cfg c pd (popStep s c rest)).2.1
        simp only [preExpand, hq2, popStep]
        exact h2.2.1
      · simp only [logCall, qualifyStep, popStep]
        split <;> exact hrest

theorem loopStates_length_le {cfg : Config} {orc : Oracles} (fuel : ℕ)
    {s : St} (h : s.queue.length ≤ cfg.maxQueue) :
    ∀ t ∈ loopStates cfg orc fuel s, t.queue.length ≤ cfg.maxQueue := by
  induction fuel generalizing s with
  | zero =>
    intro t ht
    simp only [loopStates, List.mem_singleton] at ht
    subst ht; exact h
  | succ fuel ih =>
    intro t ht
    by_cases hg : loopGuard cfg orc s
    · simp only [loopStates, if_pos hg] at ht
      rcases List.mem_cons.mp ht with rfl | ht
      · exact h
      · exact ih (bfsIter_length_le h) t ht
    · simp only [loopStates, if_neg hg, List.mem_singleton] at ht
      subst ht; exact h

/-- C4, amended: the capacity cap is enforced only by the expansion
admission path: if the queue is below the cap when the similar-accounts
admission loop starts, it stays at or below the cap at every step of the
loop (admission silently stops at the cap), and the BFS loop preserves the
bound `queue.length ≤ MAX_QUEUE_SIZE` at every top-of-loop state; the
seed-admission path, by contrast, is not capacity-checked (see the
counterexample). -/
theorem c4_capacity_amended :
    (∀ (cfg : Config) d p (s : St) us, s.queue.length < cfg.maxQueue →
      ∀ t ∈ expandStates cfg d p s us, t.queue.length ≤ cfg.maxQueue) ∧
    (∀ (cfg : Config) d p (s : St) us, s.queue.length < cfg.maxQueue →
      (expandEnqueue cfg d p s us).queue.length ≤ cfg.maxQueue) ∧
    (∀ (cfg : Config) (orc : Oracles) (s : St),
      s.queue.length ≤ cfg.maxQueue →
      (bfsIter cfg orc s).queue.length ≤ cfg.maxQueue) ∧
    (∀ (cfg : Config) (orc : Oracles) fuel (s : St),
      s.queue.length ≤ cfg.maxQueue →
      ∀ t ∈ loopStates cfg orc fuel s, t.queue.length ≤ cfg.maxQueue) :=
  ⟨fun cfg d p s us h => expandStates_length_le d p us s h,
   fun cfg d p s us h => expandEnqueue_length_le d p us s h,
   fun cfg orc s h => bfsIter_length_le h,
   fun cfg orc fuel s h => loopStates_length_le fuel h⟩

/-- c4_capacity_amended_witness instantiates the amended capacity theorem
on a concrete under-cap state. -/
theorem c4_capacity_amended_witness :
    (enqueueSeeds initSt ["a"]).queue.length ≤ cliDefault.maxQueue ∧
    (bfsIter cliDefault stopOracles (enqueueSeeds initSt ["a"])).queue.length
      ≤ cliDefault.maxQueue :=
  ⟨by decide,
   c4_capacity_amended.2.2.1 cliDefault stopOracles
     (enqueueSeeds initSt ["a"]) (by decide)⟩

end CLI

namespace CLI

/-- depthList is the sequence of depths of the entries dequeued since poll
`k` of the current BFS round followed by the depths still queued. -/
def depthList (k : ℕ) (s : St) : List ℕ :=
  ((s.dequeueLog.drop k) ++ s.queue).map Entry.depth

/-- SortInv is the breadth-first ordering invariant of one BFS round that
started after `k` dequeues: the round's dequeued depths followed by the
queued depths form a non-decreasing sequence, and any two queued depths
differ by at most one. -/
def SortInv (k : ℕ) (s : St) : Prop :=
  k ≤ s.dequeueLog.length ∧
  List.Sorted (· ≤ ·) (depthList k s) ∧
  ∀ a ∈ s.queue, ∀ b ∈ s.queue, a.depth ≤ b.depth + 1

theorem sorted_append_singleton {l : List ℕ} {n : ℕ}
    (h : List.Sorted (· ≤ ·) l) (hb : ∀ x ∈ l, x ≤ n) :
    List.Sorted (· ≤ ·) (l ++ [n]) := by
  rw [List.Sorted, List.pairwise_append]
  exact ⟨h, List.pairwise_singleton _ _,
    fun a ha b hb' => by simp only [List.mem_singleton] at hb'; subst hb'; exact hb a ha⟩

theorem expandEnqueue_sortFacts (cfg : Config) (k d : ℕ) (p : String)
    (us : List String) (s : St)
    (hs : List.Sorted (· ≤ ·) (depthList k s))
    (hub : ∀ e ∈ (s.dequeueLog.drop k) ++ s.queue, e.depth ≤ d)
    (hlb : ∀ e ∈ s.queue, d ≤ e.depth + 1) :
    (expandEnqueue cfg d p s us).dequeueLog = s.dequeueLog ∧
    List.Sorted (· ≤ ·) (depthList k (expandEnqueue cfg d p s us)) ∧
    (∀ e ∈ ((expandEnqueue cfg d p s us).dequeueLog.drop k) ++
        (expandEnqueue cfg d p s us).queue, e.depth ≤ d) ∧
    (∀ e ∈ (expandEnqueue cfg d p s us).queue, d ≤ e.depth + 1) := by
  induction us generalizing s with
  | nil => exact ⟨rfl, hs, hub, hlb⟩
  | cons u us ih =>
    by_cases hcond : u ≠ "" ∧ u ∉ s.visited
    · have hsu : List.Sorted (· ≤ ·)
          (((s.dequeueLog.drop k) ++ s.queue).map Entry.depth) := hs
      have hpushsorted : List.Sorted (· ≤ ·)
          (depthList k (pushEntry s ⟨u, d, p⟩)) := by
        unfold depthList pushEntry
        simp only []
        rw [← List.append_assoc, List.map_append]
        have hmap : List.map Entry.depth [(⟨u, d, p⟩ : Entry)] = [d] := rfl
        rw [hmap]
        refine sorted_append_singleton hsu ?_
        intro x hx
        simp only [List.mem_map] at hx
        obtain ⟨e, he, rfl⟩ := hx
        exact hub e he
      have hpushub : ∀ e ∈ ((pushEntry s ⟨u, d, p⟩).dequeueLog.drop k) ++
          (pushEntry s ⟨u, d, p⟩).queue, e.depth ≤ d := by
        intro e he
        simp only [pushEntry] at he
        rw [← List.append_assoc] at he
        rcases List.mem_append.mp he with he | he
        · exact hub e he
        · simp only [List.mem_singleton] at he
          subst he
          exact le_refl d
      have hpushlb : ∀ e ∈ (pushEntry s ⟨u, d, p⟩).queue, d ≤ e.depth + 1 := by
        intro e he
        simp only [pushEntry] at he
        rcases List.mem_append.mp he with he | he
        · exact hlb e he
        · simp only [List.mem_singleton] at he
          subst he
          exact Nat.le_succ d
      by_cases hc : cfg.maxQueue ≤ s.queue.length + 1
      · have he : expandEnqueue cfg d p s (u :: us) = pushEntry s ⟨u, d, p⟩ := by
          simp [expandEnqueue, hcond, hc, pushEntry]
        rw [he]
        exact ⟨rfl, hpushsorted, hpushub, hpushlb⟩
      · have he : expandEnqueue cfg d p s (u :: us) =
            expandEnqueue cfg d p (pushEntry s ⟨u, d, p⟩) us := by
          simp [expandEnqueue, hcond, hc, pushEntry]
        rw [he]
        exact ih (pushEntry s ⟨u, d, p⟩) hpushsorted hpushub hpushlb
    · simp only [expandEnqueue, if_neg hcond]
      exact ih s hs hub hlb

end CLI

namespace CLI

theorem depthList_congr {k : ℕ} {x y : St} (h1 : x.dequeueLog = y.dequeueLog)
    (h2 : x.queue = y.queue) : depthList k x = depthList k y := by
  unfold depthList
  rw [h1, h2]

theorem bfsIter_sortInv {cfg : Config} {orc : Oracles} {k : ℕ} {s : St}
    (h : SortInv k s) : SortInv k (bfsIter cfg orc s) := by
  obtain ⟨hk, hs, hb⟩ := h
  rcases hq : s.queue with _ | ⟨c, rest⟩
  · simp only [bfsIter, hq]
    exact ⟨hk, hs, hb⟩
  · -- decompose the sorting invariant at the dequeued entry
    have hp : List.Pairwise (· ≤ ·)
        ((s.dequeueLog.drop k).map Entry.depth ++
          (c.depth :: rest.map Entry.depth)) := by
      have := hs
      unfold depthList at this
      rw [hq, List.map_append, List.map_cons] at this
      exact this
    rw [List.pairwise_append] at hp
    obtain ⟨hpA, hpB, hpcross⟩ := hp
    rw [List.pairwise_cons] at hpB
    obtain ⟨hchead, hprest⟩ := hpB
    have hdrop_le : ∀ e ∈ s.dequeueLog.drop k, e.depth ≤ c.depth := by
      intro e he
      exact hpcross e.depth (List.mem_map_of_mem Entry.depth he) c.depth (by simp)
    have hc_le_rest : ∀ e ∈ rest, c.depth ≤ e.depth := by
      intro e he
      exact hchead e.depth (List.mem_map_of_mem Entry.depth he)
    have hrest_le : ∀ e ∈ rest, e.depth ≤ c.depth + 1 := by
      intro e he
      exact hb e (by rw [hq]; exact List.mem_cons_of_mem c he) c
        (by rw [hq]; exact List.mem_cons_self c rest)
    -- facts about the post-pop state
    have hk1 : k ≤ (s.dequeueLog ++ [c]).length := by
      rw [List.length_append]; omega
    have hlist1 : ((s.dequeueLog ++ [c]).drop k) ++ rest =
        (s.dequeueLog.drop k) ++ (c :: rest) := by
      rw [List.drop_append_of_le_length hk, List.append_assoc,
        List.singleton_append]
    have hsorted1 : List.Sorted (· ≤ ·)
        ((((s.dequeueLog ++ [c]).drop k) ++ rest).map Entry.depth) := by
      rw [hlist1]
      have := hs
      unfold depthList at this
      rw [hq] at this
      exact this
    have hb1 : ∀ a ∈ rest, ∀ b ∈ rest, a.depth ≤ b.depth + 1 := by
      intro a ha b hbmem
      exact hb a (by rw [hq]; exact List.mem_cons_of_mem c ha) b
        (by rw [hq]; exact List.mem_cons_of_mem c hbmem)
    rcases hr : orc.resolve s.apiCalls c.username with _ | pd
    · simp only [bfsIter, hq, hr]
      refine ⟨?_, ?_, ?_⟩
      · simp only [logCall, popStep]; exact hk1
      · simp only [depthList, logCall, popStep]; exact hsorted1
      · simp only [logCall, popStep]; exact hb1
    · simp only [bfsIter, hq, hr]
      have hq2 := qualifyStep_fields cfg c pd (popStep s c rest)
      have hsame : SortInv k (logCall 1 (qualifyStep cfg c pd (popStep s c rest))) := by
        refine ⟨?_, ?_, ?_⟩
        · show k ≤ (logCall 1 (qualifyStep cfg c pd (popStep s c rest))).dequeueLog.length
          simp only [logCall]
          rw [hq2.2.2.2.2.2.1]
          simp only [popStep]; exact hk1
        · show List.Sorted (· ≤ ·)
            (depthList k (logCall 1 (qualifyStep cfg c pd (popStep s c rest))))
          rw [@depthList_congr k
            (logCall 1 (qualifyStep cfg c pd (popStep s c rest)))
            (popStep s c rest)
            (by simp only [logCall]; exact hq2.2.2.2.2.2.1)
            (by simp only [logCall]; exact hq2.2.1)]
          simp only [depthList, popStep]
          exact hsorted1
        · show ∀ a ∈ (logCall 1 (qualifyStep cfg c pd (popStep s c rest))).queue,
            ∀ b ∈ (logCall 1 (qualifyStep cfg c pd (popStep s c rest))).queue,
            a.depth ≤ b.depth + 1
          simp only [logCall]
          rw [hq2.2.1]
          simp only [popStep]
          exact hb1
      split_ifs
      · exact hsame
      · -- expansion branch
        have hfacts := expandEnqueue_sortFacts cfg k (c.depth + 1) c.username
          (expandCands cfg orc c pd (qualifyStep cfg c pd (popStep s c rest)))
          (preExpand cfg orc c pd (qualifyStep cfg c pd (popStep s c rest)))
          (by
            rw [@depthList_congr k
              (preExpand cfg orc c pd (qualifyStep cfg c pd (popStep s c rest)))
              (popStep s c rest)
              (by simp only [preExpand]; exact hq2.2.2.2.2.2.1)
              (by simp only [preExpand]; exact hq2.2.1)]
            simp only [depthList, popStep]
            exact hsorted1)
          (by
            intro e he
            simp only [preExpand] at he
            rw [hq2.2.2.2.2.2.1, hq2.2.1] at he
            simp only [popStep] at he
            rw [hlist1] at he
            rcases List.mem_append.mp he with he | he
            · exact (hdrop_le e he).trans (Nat.le_succ c.depth)
            · rcases List.mem_cons.mp he with rfl | he
              · exact Nat.le_succ _
              · exact hrest_le e he)
          (by
            intro e he
            simp only [preExpand] at he
            rw [hq2.2.1] at he
            simp only [popStep] at he
            exact Nat.succ_le_succ (hc_le_rest e he))
        obtain ⟨hdl, hsorted2, hub2, hlb2⟩ := hfacts
        refine ⟨?_, ?_, ?_⟩
        · show k ≤ (logCall 2 (expandStep cfg orc c pd
            (qualifyStep cfg c pd (popStep s c rest)))).dequeueLog.length
          simp only [logCall, expandStep]
          rw [hdl]
          simp only [preExpand]
          rw [hq2.2.2.2.2.2.1]
          simp only [popStep]
          exact hk1
        · show List.Sorted (· ≤ ·) (depthList k (logCall 2 (expandStep cfg orc c pd
            (qualifyStep cfg c pd (popStep s c rest)))))
          rw [@depthList_congr k
            (logCall 2 (expandStep cfg orc c pd
              (qualifyStep cfg c pd (popStep s c rest))))
            (expandStep cfg orc c pd (qualifyStep cfg c pd (popStep s c rest)))
            rfl rfl]
          exact hsorted2
        · show ∀ a ∈ (logCall 2 (expandStep cfg orc c pd
              (qualifyStep cfg c pd (popStep s c rest)))).queue,
            ∀ b ∈ (logCall 2 (expandStep cfg orc c pd
              (qualifyStep cfg c pd (popStep s c rest)))).queue,
            a.depth ≤ b.depth + 1
          intro a ha b hbmem
          simp only [logCall, expandStep] at ha hbmem
          have h1 := hub2 a (List.mem_append.mpr (Or.inr ha))
          have h2 := hlb2 b hbmem
          omega
      · exact hsame

end CLI

namespace CLI

theorem bfsLoop_sortInv {cfg : Config} {orc : Oracles} {k : ℕ} (fuel : ℕ)
    {s : St} (h : SortInv k s) : SortInv k (bfsLoop cfg orc fuel s) := by
  induction fuel generalizing s with
  | zero => exact h
  | succ fuel ih =>
    by_cases hg : loopGuard cfg orc s
    · simp only [bfsLoop, if_pos hg]
      exact ih (bfsIter_sortInv h)
    · simpa only [bfsLoop, if_neg hg] using h

theorem sorted_of_const_zero {l : List ℕ} (h : ∀ x ∈ l, x = 0) :
    List.Sorted (· ≤ ·) l := by
  induction l with
  | nil => exact List.sorted_nil
  | cons a l ih =>
    rw [List.sorted_cons]
    refine ⟨fun b hb => ?_, ih fun x hx => h x (List.mem_cons_of_mem a hx)⟩
    rw [h a (List.mem_cons_self a l), h b (List.mem_cons_of_mem a hb)]

theorem enqueueSeeds_queue_mem (seeds : List String) (s : St) :
    ∀ e ∈ (enqueueSeeds s seeds).queue, e ∈ s.queue ∨ e.depth = 0 := by
  induction seeds generalizing s with
  | nil =>
    intro e he
    simp only [enqueueSeeds, List.foldl_nil] at he
    exact Or.inl he
  | cons u us ih =>
    intro e he
    by_cases hv : u ∈ s.visited
    · have heq : enqueueSeeds s (u :: us) = enqueueSeeds s us := by
        simp [enqueueSeeds, List.foldl_cons, hv]
      rw [heq] at he
      exact ih s e he
    · have heq : enqueueSeeds s (u :: us) =
          enqueueSeeds (pushEntry s ⟨u, 0, "hashtag"⟩) us := by
        simp [enqueueSeeds, List.foldl_cons, hv]
      rw [heq] at he
      rcases ih (pushEntry s ⟨u, 0, "hashtag"⟩) e he with hmem | hd
      · simp only [pushEntry] at hmem
        rcases List.mem_append.mp hmem with hmem | hmem
        · exact Or.inl hmem
        · simp only [List.mem_singleton] at hmem
          subst hmem
          exact Or.inr rfl
      · exact Or.inr hd

theorem enqueueSeeds_sortInv (seeds : List String) (s : St)
    (hempty : s.queue = []) :
    SortInv s.dequeueLog.length (enqueueSeeds s seeds) := by
  have hdl : (enqueueSeeds s seeds).dequeueLog = s.dequeueLog :=
    (enqueueSeeds_untouched seeds s).2.2.2.2.2
  refine ⟨by rw [hdl], ?_, ?_⟩
  · unfold depthList
    rw [hdl, List.drop_length, List.nil_append]
    refine sorted_of_const_zero ?_
    intro x hx
    rcases List.mem_map.mp hx with ⟨e, he, rfl⟩
    rcases enqueueSeeds_queue_mem seeds s e he with hmem | hd
    · rw [hempty] at hmem
      exact absurd hmem (List.not_mem_nil e)
    · exact hd
  · intro a ha b hbmem
    rcases enqueueSeeds_queue_mem seeds s a ha with hmem | hd
    · rw [hempty] at hmem
      exact absurd hmem (List.not_mem_nil a)
    · omega

/-- C3, amended: frontier entries are dequeued in FIFO order — the
sequence of dequeued entries is always a prefix of the sequence of admitted
entries — and within one BFS round (each round starts with an empty queue:
the round loop only reaches a new round after the previous BFS loop drained
its queue) the sequence of depths of dequeued entries is non-decreasing.
Across rounds the depth sequence need not be monotone, because a later
round's seeds re-enter at depth 0 (see the counterexample). -/
theorem c3_fifo_depth_amended :
    (∀ cfg orc fuel seedss,
      (runRounds cfg orc fuel seedss initSt).dequeueLog =
        (runRounds cfg orc fuel seedss initSt).entryLog.take
          (runRounds cfg orc fuel seedss initSt).dequeueLog.length) ∧
    (∀ cfg orc seeds fuel (s : St), s.queue = [] →
      List.Sorted (· ≤ ·)
        (((smartBfs cfg orc seeds fuel s).dequeueLog.drop
            s.dequeueLog.length).map Entry.depth)) := by
  constructor
  · intro cfg orc fuel seedss
    have h := @runRounds_inv cfg orc fuel seedss initSt initSt_inv
    have hlog := h.1.1
    rw [← hlog, List.take_left]
  · intro cfg orc seeds fuel s hempty
    have h : SortInv s.dequeueLog.length (smartBfs cfg orc seeds fuel s) :=
      bfsLoop_sortInv fuel (enqueueSeeds_sortInv seeds s hempty)
    obtain ⟨-, hsorted, -⟩ := h
    unfold depthList at hsorted
    rw [List.map_append] at hsorted
    exact List.Pairwise.sublist
      ((List.prefix_append _ _).sublist) hsorted

/-- c3_fifo_depth_amended_witness instantiates the per-round depth
monotonicity on a concrete round from the initial (empty-queue) state. -/
theorem c3_fifo_depth_amended_witness :
    initSt.queue = [] ∧
    List.Sorted (· ≤ ·)
      (((smartBfs cliDefault stopOracles ["a"] 1 initSt).dequeueLog.drop
          initSt.dequeueLog.length).map Entry.depth) :=
  ⟨rfl, c3_fifo_depth_amended.2 cliDefault stopOracles ["a"] 1 initSt rfl⟩

/-- pdOf is the profile the counterexample resolver returns: every account
resolves with 100 followers. -/
def pdOf (u : String) : ProfileData := ⟨u, "", 100, 0, 0, false, false, "", "", 0⟩

/-- roundsOracles drives the two-round counterexample: every profile
resolves with 100 followers, account `"a"` has the single similar account
`"b"`, nobody else has similar accounts, and the session is never
interrupted. -/
def roundsOracles : Oracles :=
  ⟨fun _ u => some (pdOf u), fun _ u => if u = "a" then ["b"] else [],
   fun _ => false⟩

/-- roundsConfig asks for 10 profiles with threshold 100. -/
def roundsConfig : Config := ⟨10, 100, 1000⟩

/-- C3, counterexample: in the two-round run with seeds `["a"]` then
`["c"]`, the dequeued entries are `a` (depth 0), `b` (depth 1), `c`
(depth 0) in that order: entry `c` was created during the run with
`c.depth < b.depth`, yet `b` is dequeued strictly before `c`, and the
dequeued-depth sequence `[0, 1, 0]` of the whole run is not
non-decreasing. -/
theorem c3_depth_order_counterexample :
    ((runRounds roundsConfig roundsOracles 5 [["a"], ["c"]]
        initSt).dequeueLog.map Entry.depth = [0, 1, 0]) ∧
    (runRounds roundsConfig roundsOracles 5 [["a"], ["c"]]
        initSt).dequeueLog = [⟨"a", 0, "hashtag"⟩, ⟨"b", 1, "a"⟩,
          ⟨"c", 0, "hashtag"⟩] ∧
    ¬ List.Sorted (· ≤ ·)
        ((runRounds roundsConfig roundsOracles 5 [["a"], ["c"]]
            initSt).dequeueLog.map Entry.depth) := by
  refine ⟨by decide, by decide, by decide⟩

end CLI

namespace CLI

/-- measureQ is the termination measure of the BFS loop over a finite
universe of identifiers: not-yet-visited universe members plus queued
entries. -/
def measureQ (univ : Finset String) (s : St) : ℕ :=
  (univ \ s.visited).card + s.queue.length

theorem pushEntry_measure {univ : Finset String} {s : St} {e : Entry}
    (hu : e.username ∈ univ) (hv : e.username ∉ s.visited) :
    measureQ univ (pushEntry s e) = measureQ univ s := by
  unfold measureQ pushEntry
  simp only [List.length_append, List.length_cons, List.length_nil]
  rw [Finset.sdiff_insert,
    Finset.card_erase_of_mem (by simp [Finset.mem_sdiff, hu, hv])]
  have hpos : 0 < (univ \ s.visited).card :=
    Finset.card_pos.mpr ⟨e.username, by simp [Finset.mem_sdiff, hu, hv]⟩
  omega

theorem expandEnqueue_measure {univ : Finset String} (cfg : Config) (d : ℕ)
    (p : String) (us : List String) (s : St) (hn : ∀ u ∈ us, u ∈ univ) :
    measureQ univ (expandEnqueue cfg d p s us) ≤ measureQ univ s := by
  induction us generalizing s with
  | nil => simp [expandEnqueue]
  | cons u us ih =>
    by_cases hcond : u ≠ "" ∧ u ∉ s.visited
    · have hpm : measureQ univ (pushEntry s ⟨u, d, p⟩) = measureQ univ s :=
        pushEntry_measure (hn u (by simp)) hcond.2
      by_cases hc : cfg.maxQueue ≤ s.queue.length + 1
      · have he : expandEnqueue cfg d p s (u :: us) = pushEntry s ⟨u, d, p⟩ := by
          simp [expandEnqueue, hcond, hc, pushEntry]
        rw [he, hpm]
      · have he : expandEnqueue cfg d p s (u :: us) =
            expandEnqueue cfg d p (pushEntry s ⟨u, d, p⟩) us := by
          simp [expandEnqueue, hcond, hc, pushEntry]
        rw [he]
        calc measureQ univ (expandEnqueue cfg d p (pushEntry s ⟨u, d, p⟩) us)
            ≤ measureQ univ (pushEntry s ⟨u, d, p⟩) :=
              ih (pushEntry s ⟨u, d, p⟩) (fun v hv => hn v (by simp [hv]))
          _ = measureQ univ s := hpm
    · simp only [expandEnqueue, if_neg hcond]
      exact ih s (fun v hv => hn v (by simp [hv]))

theorem bfsIter_measure {cfg : Config} {orc : Oracles} {univ : Finset String}
    {s : St} (hq : s.queue ≠ [])
    (hn : ∀ n u v, v ∈ orc.neighbors n u → v ∈ univ) :
    measureQ univ (bfsIter cfg orc s) + 1 ≤ measureQ univ s := by
  rcases hqe : s.queue with _ | ⟨c, rest⟩
  · exact absurd hqe hq
  · have hmrest : (univ \ s.visited).card + rest.length + 1 = measureQ univ s := by
      unfold measureQ
      rw [hqe]
      simp only [List.length_cons]
      omega
    rcases hr : orc.resolve s.apiCalls c.username with _ | pd
    · simp only [bfsIter, hqe, hr]
      rw [← hmrest]
      unfold measureQ
      simp only [logCall, popStep]
      omega
    · simp only [bfsIter, hqe, hr]
      have hq2 := qualifyStep_fields cfg c pd (popStep s c rest)
      have hmeasure_same : measureQ univ (logCall 1 (qualifyStep cfg c pd
          (popStep s c rest))) + 1 ≤ measureQ univ s := by
        rw [← hmrest]
        unfold measureQ
        simp only [logCall]
        rw [hq2.1, hq2.2.1]
        simp only [popStep]
        omega
      split_ifs
      · exact hmeasure_same
      · have hpre : measureQ univ (preExpand cfg orc c pd
            (qualifyStep cfg c pd (popStep s c rest))) + 1 = measureQ univ s := by
          rw [← hmrest]
          unfold measureQ
          simp only [preExpand]
          rw [hq2.1, hq2.2.1]
          simp only [popStep]
        have hexp := expandEnqueue_measure cfg (c.depth + 1) c.username
          (expandCands cfg orc c pd (qualifyStep cfg c pd (popStep s c rest)))
          (preExpand cfg orc c pd (qualifyStep cfg c pd (popStep s c rest)))
          (by
            intro v hv
            unfold expandCands at hv
            exact hn _ _ v (List.Sublist.mem hv (List.take_sublist _ _)))
        have hfinal : measureQ univ (logCall 2 (expandStep cfg orc c pd
            (qualifyStep cfg c pd (popStep s c rest)))) =
            measureQ univ (expandStep cfg orc c pd
              (qualifyStep cfg c pd (popStep s c rest))) := rfl
        rw [hfinal]
        unfold expandStep
        omega
      · exact hmeasure_same

theorem bfsIter_processed {cfg : Config} {orc : Oracles} {s : St}
    (hq : s.queue ≠ []) :
    (bfsIter cfg orc s).processed = s.processed + 1 := by
  rcases hqe : s.queue with _ | ⟨c, rest⟩
  · exact absurd hqe hq
  · rcases hr : orc.resolve s.apiCalls c.username with _ | pd
    · simp [bfsIter, hqe, hr, logCall, popStep]
    · simp only [bfsIter, hqe, hr]
      have hq2 := qualifyStep_fields cfg c pd (popStep s c rest)
      split_ifs
      · simp only [logCall]
        rw [hq2.2.2.2.1]
        simp [popStep]
      · simp only [logCall, expandStep]
        rw [(expandEnqueue_untouched cfg (c.depth + 1) c.username _ _).2.2.1]
        simp only [preExpand]
        rw [hq2.2.2.2.1]
        simp [popStep]
      · simp only [logCall]
        rw [hq2.2.2.2.1]
        simp [popStep]

end CLI

namespace CLI

theorem bfsLoop_exits {cfg : Config} {orc : Oracles} {univ : Finset String}
    (fuel : ℕ) {s : St}
    (hn : ∀ n u v, v ∈ orc.neighbors n u → v ∈ univ)
    (hf : measureQ univ s ≤ fuel) :
    ¬ loopGuard cfg orc (bfsLoop cfg orc fuel s) ∧
    (bfsLoop cfg orc fuel s).processed ≤ s.processed + measureQ univ s := by
  induction fuel generalizing s with
  | zero =>
    have hq : s.queue = [] := by
      have : s.queue.length = 0 := by
        unfold measureQ at hf
        omega
      exact List.eq_nil_of_length_eq_zero this
    constructor
    · intro hg
      exact hg.1 hq
    · simp [bfsLoop]
  | succ fuel ih =>
    by_cases hg : loopGuard cfg orc s
    · simp only [bfsLoop, if_pos hg]
      have hstep := @bfsIter_measure cfg orc univ s hg.1 hn
      have hrec := @ih (bfsIter cfg orc s) (by omega)
      refine ⟨hrec.1, ?_⟩
      have hproc := @bfsIter_processed cfg orc s hg.1
      have := hrec.2
      omega
    · simp only [bfsLoop, if_neg hg]
      exact ⟨hg, by omega⟩

/-- C5: the discovery loop terminates and its iteration count is bounded.
Whenever every identifier the neighbor provider can return lies in a finite
universe `univ`, running the BFS loop with fuel at least
`measureQ univ s` (unvisited universe members plus queue length) reaches a
state in which the loop condition is false — the fuel never runs out, i.e.
the `while` loop exits — and the number of iterations performed is at most
`measureQ univ s`; moreover over a whole session starting from the initial
state, the number of loop iterations ever performed is at most the final
size of the visited set. -/
theorem c5_termination :
    (∀ (cfg : Config) (orc : Oracles) (univ : Finset String) (fuel : ℕ)
      (s : St),
      (∀ n u v, v ∈ orc.neighbors n u → v ∈ univ) →
      measureQ univ s ≤ fuel →
      ¬ loopGuard cfg orc (bfsLoop cfg orc fuel s) ∧
      (bfsLoop cfg orc fuel s).processed ≤ s.processed + measureQ univ s) ∧
    (∀ cfg orc fuel seedss,
      (runRounds cfg orc fuel seedss initSt).processed ≤
        (runRounds cfg orc fuel seedss initSt).visited.card) := by
  constructor
  · intro cfg orc univ fuel s hn hf
    exact bfsLoop_exits fuel hn hf
  · intro cfg orc fuel seedss
    have h := @runRounds_inv cfg orc fuel seedss initSt initSt_inv
    have h1 := inv_processed_le h
    have h2 := inv_entryLog_card h
    have h3 := h.2.1
    omega

/-- c5_termination_witness runs the termination theorem on a concrete
one-seed session with universe `{"a"}` and fuel 1. -/
theorem c5_termination_witness :
    (∀ n u v, v ∈ stopOracles.neighbors n u → v ∈ ({"a"} : Finset String)) ∧
    measureQ {"a"} (enqueueSeeds initSt ["a"]) ≤ 1 ∧
    (¬ loopGuard cliDefault stopOracles
        (bfsLoop cliDefault stopOracles 1 (enqueueSeeds initSt ["a"])) ∧
      (bfsLoop cliDefault stopOracles 1
          (enqueueSeeds initSt ["a"])).processed ≤
        (enqueueSeeds initSt ["a"]).processed +
          measureQ {"a"} (enqueueSeeds initSt ["a"])) :=
  ⟨fun n u v hv => absurd hv (List.not_mem_nil v), by decide,
   c5_termination.1 cliDefault stopOracles {"a"} 1 (enqueueSeeds initSt ["a"])
     (fun n u v hv => absurd hv (List.not_mem_nil v)) (by decide)⟩

end CLI

namespace CLI

theorem bfsLoop_processed_cancel {cfg : Config} {orc : Oracles} {k : ℕ}
    (horc : ∀ i, orc.shutdownAt i = false → i ≤ k) (fuel : ℕ) (s : St) :
    (bfsLoop cfg orc fuel s).processed ≤ max s.processed (k + 1) := by
  induction fuel generalizing s with
  | zero => simp [bfsLoop, Nat.le_max_left]
  | succ fuel ih =>
    by_cases hg : loopGuard cfg orc s
    · simp only [bfsLoop, if_pos hg]
      have hle : s.processed ≤ k := horc s.processed hg.2.2
      calc (bfsLoop cfg orc fuel (bfsIter cfg orc s)).processed
          ≤ max (bfsIter cfg orc s).processed (k + 1) := ih (bfsIter cfg orc s)
        _ ≤ max s.processed (k + 1) := by
            rw [@bfsIter_processed cfg orc s hg.1]
            omega
    · simp only [bfsLoop, if_neg hg]
      exact Nat.le_max_left _ _

theorem drop_sum_le {l : List ℕ} {k : ℕ} (hlen : l.length ≤ k + 1)
    (hle : ∀ n ∈ l, n ≤ 2) : (l.drop k).sum ≤ 2 := by
  rcases hd : l.drop k with _ | ⟨x, t⟩
  · simp
  · have hlen2 : (l.drop k).length = l.length - k := List.length_drop k l
    rw [hd] at hlen2
    simp only [List.length_cons] at hlen2
    have ht : t = [] := by
      have : t.length = 0 := by omega
      exact List.eq_nil_of_length_eq_zero this
    subst ht
    simp only [List.sum_cons, List.sum_nil, Nat.add_zero]
    exact hle x (List.Sublist.mem (by rw [hd]; simp) (List.drop_sublist k l))

/-- C6, amended: the cancellation flag is polled exactly at the top of
every loop iteration (every executed iteration observed the flag false at
its poll) and never mid-iteration; when the flag becomes set right after
the `k`-th poll — the worst case for an asynchronous signal — the loop runs
at most one more full iteration (`processed ≤ k + 1`), and since one
iteration performs at most two remote calls (one profile resolve and at
most one similar-accounts fetch), at most two — not one — remote calls
occur after the flag is set, before the loop exits. -/
theorem c6_cancellation_amended :
    ∀ (cfg : Config) (orc : Oracles) (k : ℕ) (fuel : ℕ) (seeds : List String),
    orc.shutdownAt = (fun i => decide (k < i)) →
    (∀ i < (bfsLoop cfg orc fuel (enqueueSeeds initSt seeds)).processed,
       orc.shutdownAt i = false) ∧
    (bfsLoop cfg orc fuel (enqueueSeeds initSt seeds)).processed ≤ k + 1 ∧
    (bfsLoop cfg orc fuel (enqueueSeeds initSt seeds)).callLog.length =
      (bfsLoop cfg orc fuel (enqueueSeeds initSt seeds)).processed ∧
    (∀ n ∈ (bfsLoop cfg orc fuel (enqueueSeeds initSt seeds)).callLog,
       n ≤ 2) ∧
    (bfsLoop cfg orc fuel (enqueueSeeds initSt seeds)).callLog.sum =
      (bfsLoop cfg orc fuel (enqueueSeeds initSt seeds)).apiCalls ∧
    ((bfsLoop cfg orc fuel
        (enqueueSeeds initSt seeds)).callLog.drop k).sum ≤ 2 := by
  intro cfg orc k fuel seeds horc
  have hinv : Inv (bfsLoop cfg orc fuel (enqueueSeeds initSt seeds)) :=
    bfsLoop_inv fuel (enqueueSeeds_inv seeds initSt_inv)
  have hp0 : (enqueueSeeds initSt seeds).processed = 0 :=
    (enqueueSeeds_untouched seeds initSt).2.2.1
  have hproc : (bfsLoop cfg orc fuel (enqueueSeeds initSt seeds)).processed ≤
      k + 1 := by
    have := @bfsLoop_processed_cancel cfg orc k
      (by intro i hi; rw [horc] at hi; simpa using hi) fuel
      (enqueueSeeds initSt seeds)
    rw [hp0] at this
    simpa using this
  refine ⟨?_, hproc, hinv.2.2.1, hinv.2.2.2.2, hinv.2.2.2.1, ?_⟩
  · intro i hi
    rw [horc]
    simp only [decide_eq_false_iff_not, not_lt]
    omega
  · refine drop_sum_le ?_ hinv.2.2.2.2
    rw [hinv.2.2.1]
    exact hproc

/-- c6_cancellation_amended_witness instantiates the amended cancellation
theorem on a concrete cancelled session. -/
theorem c6_cancellation_amended_witness :
    (Oracles.mk (fun _ u => some (pdOf u)) (fun _ _ => [])
        (fun i => decide (0 < i))).shutdownAt =
      (fun i => decide (0 < i)) ∧
    ((bfsLoop roundsConfig
        (Oracles.mk (fun _ u => some (pdOf u)) (fun _ _ => [])
          (fun i => decide (0 < i)))
        5 (enqueueSeeds initSt ["a"])).callLog.drop 0).sum ≤ 2 :=
  ⟨rfl,
   (c6_cancellation_amended roundsConfig
      (Oracles.mk (fun _ u => some (pdOf u)) (fun _ _ => [])
        (fun i => decide (0 < i))) 0 5 ["a"] rfl).2.2.2.2.2⟩

/-- cancelOracles drives the cancellation counterexample: the interrupt
arrives immediately after the first top-of-loop poll (so poll 0 reads the
flag unset and every later poll reads it set); every profile resolves with
100 followers and account `"a"` has one similar account. -/
def cancelOracles : Oracles :=
  ⟨fun _ u => some (pdOf u), fun _ u => if u = "a" then ["b"] else [],
   fun i => decide (0 < i)⟩

/-- C6, counterexample: with the flag set right after the first poll, the
single iteration that follows performs two remote calls (the profile
resolve and the similar-accounts fetch), so "at most one more remote call
occurs before the loop exits" is false: two remote calls occur after the
flag is set. -/
theorem c6_cancellation_counterexample :
    cancelOracles.shutdownAt 0 = false ∧
    (∀ i, 0 < i → cancelOracles.shutdownAt i = true) ∧
    (bfsLoop roundsConfig cancelOracles 5
        (enqueueSeeds initSt ["a"])).processed = 1 ∧
    (bfsLoop roundsConfig cancelOracles 5
        (enqueueSeeds initSt ["a"])).callLog = [2] ∧
    1 < ((bfsLoop roundsConfig cancelOracles 5
        (enqueueSeeds initSt ["a"])).callLog.drop 0).sum := by
  refine ⟨rfl, ?_, by decide, by decide, by decide⟩
  intro i hi
  simp [cancelOracles, hi]

end CLI

namespace CLI

/-- Tier is the quality tier of the spec (High / Medium / Low). -/
inductive Tier | high | medium | low
deriving DecidableEq, Repr

/-- tierOf classifies a follower count against the threshold exactly as the
CLI script's branch structure does: High when the threshold is met, Medium
when `followers >= MIN_FOLLOWERS * 0.5` (exactly `2 * followers ≥
threshold` for integers), Low otherwise. -/
def tierOf (f T : ℕ) : Tier :=
  if T ≤ f then Tier.high
  else if T ≤ 2 * f then Tier.medium
  else Tier.low

/-- maxDepthFor is the per-tier depth limit of the policy table. -/
def maxDepthFor : Tier → ℕ
  | Tier.high => 3
  | Tier.medium => 1
  | Tier.low => 1

/-- widthFor is the per-tier expansion width of the policy table. -/
def widthFor : Tier → ℕ
  | Tier.high => 25
  | Tier.medium => 15
  | Tier.low => 8

theorem maxDepthOf_eq_tier (cfg : Config) (pd : ProfileData) :
    maxDepthOf cfg pd = maxDepthFor (tierOf pd.followers cfg.minFollowers) := by
  unfold maxDepthOf tierOf maxDepthFor
  by_cases h1 : cfg.minFollowers ≤ pd.followers
  · simp [h1]
  · by_cases h2 : cfg.minFollowers ≤ 2 * pd.followers <;> simp [h1, h2]

theorem expandCount_eq_tier (cfg : Config) (pd : ProfileData) :
    expandCount cfg pd = widthFor (tierOf pd.followers cfg.minFollowers) := by
  unfold expandCount tierOf widthFor
  by_cases h1 : cfg.minFollowers ≤ pd.followers
  · simp [h1]
  · by_cases h2 : cfg.minFollowers ≤ 2 * pd.followers <;> simp [h1, h2]

/-- C1: the expansion policy of the CLI engine.  For a dequeued entry whose
profile resolves with follower count `f` under threshold `T` (with the CLI
defaults: even threshold, `MAX_QUEUE_SIZE = 1000`, positive target), the
tier is High iff `f ≥ T` (maxDepth 3, width 25), Medium iff
`T/2 ≤ f < T` (maxDepth 1, width 15), Low iff `f < T/2` (maxDepth 1,
width 8); the iteration performs an expansion (exactly one expansion
request is logged) iff the entry's depth is strictly below the tier's
maxDepth AND the post-dequeue queue size is strictly below 1000 AND
qualified-so-far (including the current profile if it qualified) is
strictly below 80% of the target; and an expansion requests at most
`widthFor tier` neighbor candidates. -/
theorem c1_expansion_policy :
    ∀ (cfg : Config) (orc : Oracles) (s : St) (e : Entry) (rest : List Entry)
      (pd : ProfileData),
    s.queue = e :: rest →
    orc.resolve s.apiCalls e.username = some pd →
    0 < cfg.target →
    2 ∣ cfg.minFollowers →
    cfg.maxQueue = 1000 →
    ((tierOf pd.followers cfg.minFollowers = Tier.high ↔
        cfg.minFollowers ≤ pd.followers) ∧
     (tierOf pd.followers cfg.minFollowers = Tier.medium ↔
        cfg.minFollowers / 2 ≤ pd.followers ∧
          pd.followers < cfg.minFollowers) ∧
     (tierOf pd.followers cfg.minFollowers = Tier.low ↔
        pd.followers < cfg.minFollowers / 2)) ∧
    (maxDepthFor Tier.high = 3 ∧ maxDepthFor Tier.medium = 1 ∧
      maxDepthFor Tier.low = 1) ∧
    (widthFor Tier.high = 25 ∧ widthFor Tier.medium = 15 ∧
      widthFor Tier.low = 8) ∧
    (((bfsIter cfg orc s).expLog.length = s.expLog.length + 1) ↔
      (e.depth < maxDepthFor (tierOf pd.followers cfg.minFollowers) ∧
       rest.length < 1000 ∧
       100 * (if cfg.minFollowers ≤ pd.followers then s.results.length + 1
          else s.results.length) < 80 * cfg.target)) ∧
    (∀ u cs, (bfsIter cfg orc s).expLog = s.expLog ++ [(u, cs)] →
      cs.length ≤ widthFor (tierOf pd.followers cfg.minFollowers)) := by
  intro cfg orc s e rest pd hq hr htarget heven hcap
  have htri : (cfg.minFollowers ≤ pd.followers ∧
        tierOf pd.followers cfg.minFollowers = Tier.high) ∨
      ((¬ cfg.minFollowers ≤ pd.followers) ∧
        cfg.minFollowers ≤ 2 * pd.followers ∧
        tierOf pd.followers cfg.minFollowers = Tier.medium) ∨
      ((¬ cfg.minFollowers ≤ pd.followers) ∧
        (¬ cfg.minFollowers ≤ 2 * pd.followers) ∧
        tierOf pd.followers cfg.minFollowers = Tier.low) := by
    by_cases h1 : cfg.minFollowers ≤ pd.followers
    · exact Or.inl ⟨h1, by unfold tierOf; rw [if_pos h1]⟩
    · by_cases h2 : cfg.minFollowers ≤ 2 * pd.followers
      · exact Or.inr (Or.inl ⟨h1, h2, by
          unfold tierOf; rw [if_neg h1, if_pos h2]⟩)
      · exact Or.inr (Or.inr ⟨h1, h2, by
          unfold tierOf; rw [if_neg h1, if_neg h2]⟩)
  have htier :
      (tierOf pd.followers cfg.minFollowers = Tier.high ↔
        cfg.minFollowers ≤ pd.followers) ∧
      (tierOf pd.followers cfg.minFollowers = Tier.medium ↔
        cfg.minFollowers / 2 ≤ pd.followers ∧
          pd.followers < cfg.minFollowers) ∧
      (tierOf pd.followers cfg.minFollowers = Tier.low ↔
        pd.followers < cfg.minFollowers / 2) := by
    refine ⟨?_, ?_, ?_⟩ <;> constructor <;> intro h
    · rcases htri with ⟨ha, -⟩ | ⟨-, -, heq⟩ | ⟨-, -, heq⟩
      · exact ha
      · exact Tier.noConfusion (heq.symm.trans h)
      · exact Tier.noConfusion (heq.symm.trans h)
    · rcases htri with ⟨-, heq⟩ | ⟨hn, -, -⟩ | ⟨hn, -, -⟩
      · exact heq
      · exact absurd h hn
      · exact absurd h hn
    · rcases htri with ⟨-, heq⟩ | ⟨hn1, hn2, -⟩ | ⟨-, -, heq⟩
      · exact Tier.noConfusion (heq.symm.trans h)
      · omega
      · exact Tier.noConfusion (heq.symm.trans h)
    · rcases htri with ⟨ha, -⟩ | ⟨-, -, heq⟩ | ⟨-, hn2, -⟩
      · omega
      · exact heq
      · omega
    · rcases htri with ⟨-, heq⟩ | ⟨-, -, heq⟩ | ⟨-, hn2, -⟩
      · exact Tier.noConfusion (heq.symm.trans h)
      · exact Tier.noConfusion (heq.symm.trans h)
      · omega
    · rcases htri with ⟨ha, -⟩ | ⟨-, hn2, -⟩ | ⟨-, -, heq⟩
      · omega
      · omega
      · exact heq
  have hq2 := qualifyStep_fields cfg e pd (popStep s e rest)
  have hs2q : (qualifyStep cfg e pd (popStep s e rest)).queue = rest := by
    rw [hq2.2.1]; rfl
  have hs2r : (qualifyStep cfg e pd (popStep s e rest)).results.length =
      (if cfg.minFollowers ≤ pd.followers then s.results.length + 1
        else s.results.length) := by
    unfold qualifyStep
    split <;> simp [popStep]
  have hs2e : (qualifyStep cfg e pd (popStep s e rest)).expLog = s.expLog := by
    rw [hq2.2.2.2.2.2.2.2]; rfl
  refine ⟨htier, ⟨rfl, rfl, rfl⟩, ⟨rfl, rfl, rfl⟩, ?_, ?_⟩
  · -- the expansion iff
    simp only [bfsIter, hq, hr]
    by_cases hbreak : cfg.minFollowers ≤ pd.followers ∧
        cfg.target ≤ (qualifyStep cfg e pd (popStep s e rest)).results.length
    · rw [if_pos hbreak]
      constructor
      · intro habs
        exfalso
        simp only [logCall] at habs
        rw [hs2e] at habs
        omega
      · intro habs
        exfalso
        have hql := hbreak.1
        have hlen := hbreak.2
        rw [hs2r, if_pos hql] at hlen
        have h3 := habs.2.2
        rw [if_pos hql] at h3
        omega
    · rw [if_neg hbreak]
      by_cases hcond : e.depth < maxDepthOf cfg pd ∧
          (qualifyStep cfg e pd (popStep s e rest)).queue.length <
            cfg.maxQueue ∧
          100 * (qualifyStep cfg e pd (popStep s e rest)).results.length <
            80 * cfg.target
      · rw [if_pos hcond]
        constructor
        · intro hunused
          obtain ⟨hc1, hc2, hc3⟩ := hcond
          rw [maxDepthOf_eq_tier] at hc1
          rw [hs2q, hcap] at hc2
          rw [hs2r] at hc3
          exact ⟨hc1, hc2, hc3⟩
        · intro hunused
          simp only [logCall, expandStep]
          rw [(expandEnqueue_untouched cfg (e.depth + 1) e.username _ _).2.2.2.2.1]
          simp only [preExpand]
          rw [hs2e]
          simp
      · rw [if_neg hcond]
        constructor
        · intro habs
          exfalso
          simp only [logCall] at habs
          rw [hs2e] at habs
          omega
        · intro habs
          exfalso
          apply hcond
          obtain ⟨hc1, hc2, hc3⟩ := habs
          rw [maxDepthOf_eq_tier]
          refine ⟨hc1, ?_, ?_⟩
          · rw [hs2q, hcap]; exact hc2
          · rw [hs2r]; exact hc3
  · -- the width bound
    intro u cs hcs
    simp only [bfsIter, hq, hr] at hcs
    by_cases hbreak : cfg.minFollowers ≤ pd.followers ∧
        cfg.target ≤ (qualifyStep cfg e pd (popStep s e rest)).results.length
    · rw [if_pos hbreak] at hcs
      simp only [logCall] at hcs
      rw [hs2e] at hcs
      exfalso
      have := congrArg List.length hcs
      simp at this
    · rw [if_neg hbreak] at hcs
      by_cases hcond : e.depth < maxDepthOf cfg pd ∧
          (qualifyStep cfg e pd (popStep s e rest)).queue.length <
            cfg.maxQueue ∧
          100 * (qualifyStep cfg e pd (popStep s e rest)).results.length <
            80 * cfg.target
      · rw [if_pos hcond] at hcs
        simp only [logCall, expandStep] at hcs
        rw [(expandEnqueue_untouched cfg (e.depth + 1) e.username _ _).2.2.2.2.1]
          at hcs
        simp only [preExpand] at hcs
        rw [hs2e] at hcs
        have hpair := List.append_cancel_left hcs
        have hcseq : cs = expandCands cfg orc e pd
            (qualifyStep cfg e pd (popStep s e rest)) := by
          have h2 : ((u, cs) : String × List String) =
              (e.username, expandCands cfg orc e pd
                (qualifyStep cfg e pd (popStep s e rest))) := by
            have hthis := hpair
            simp only [List.cons.injEq, and_true] at hthis
            exact hthis.symm
          exact congrArg Prod.snd h2
        rw [hcseq]
        unfold expandCands
        rw [expandCount_eq_tier]
        exact (List.length_take _ _).le.trans (by simp)
      · rw [if_neg hcond] at hcs
        simp only [logCall] at hcs
        rw [hs2e] at hcs
        exfalso
        have := congrArg List.length hcs
        simp at this

end CLI

namespace CLI

/-- wPd is a concrete resolved profile above the default threshold. -/
def wPd : ProfileData := ⟨"a", "", 60000, 0, 0, false, false, "", "", 0⟩

/-- wOrc resolves every username to `wPd` and offers two similar
accounts. -/
def wOrc : Oracles :=
  ⟨fun _ _ => some wPd, fun _ _ => ["b", "c"], fun _ => false⟩

/-- c1_expansion_policy_witness instantiates the expansion-policy theorem
at the default configuration on a concrete dequeued seed entry. -/
theorem c1_expansion_policy_witness :
    (enqueueSeeds initSt ["a"]).queue =
      (⟨"a", 0, "hashtag"⟩ : Entry) :: [] ∧
    wOrc.resolve (enqueueSeeds initSt ["a"]).apiCalls "a" = some wPd ∧
    0 < cliDefault.target ∧ 2 ∣ cliDefault.minFollowers ∧
    cliDefault.maxQueue = 1000 ∧
    (((bfsIter cliDefault wOrc (enqueueSeeds initSt ["a"])).expLog.length =
        (enqueueSeeds initSt ["a"]).expLog.length + 1) ↔
      ((⟨"a", 0, "hashtag"⟩ : Entry).depth <
          maxDepthFor (tierOf wPd.followers cliDefault.minFollowers) ∧
        ([] : List Entry).length < 1000 ∧
        100 * (if cliDefault.minFollowers ≤ wPd.followers then
            (enqueueSeeds initSt ["a"]).results.length + 1
          else (enqueueSeeds initSt ["a"]).results.length) <
          80 * cliDefault.target)) :=
  ⟨rfl, rfl, by decide, by decide, rfl,
   (c1_expansion_policy cliDefault wOrc (enqueueSeeds initSt ["a"])
      ⟨"a", 0, "hashtag"⟩ [] wPd rfl rfl (by decide) (by decide)
      rfl).2.2.2.1⟩

end CLI

namespace CLI

/-- isAllowedChar is the character class `[a-zA-Z0-9_.]` of the username
regex (ASCII letters, digits, underscore, dot). -/
def isAllowedChar (c : Char) : Bool :=
  c.isAlpha || c.isDigit || c == '_' || c == '.'

/-- pyMatchAllowed models `re.match(r'^[a-zA-Z0-9_.]+$', u)`: one or more
allowed characters spanning the whole string, where Python's `$` also
matches just before one trailing newline. -/
def pyMatchAllowed (u : String) : Bool :=
  (!u.data.isEmpty && u.data.all isAllowedChar) ||
  (u.data.getLast? == some '\n' && !u.data.dropLast.isEmpty &&
    u.data.dropLast.all isAllowedChar)

/-- pyLowerChar lowercases one ASCII character, as Python's `str.lower`
does on the ASCII-only strings that reach the denylist check (the regex
check has already confined the string to `[a-zA-Z0-9_.]`). -/
def pyLowerChar (c : Char) : Char :=
  if 'A' ≤ c ∧ c ≤ 'Z' then Char.ofNat (c.toNat + 32) else c

/-- pyLower is `str.lower` on ASCII strings. -/
def pyLower (u : String) : String := String.mk (u.data.map pyLowerChar)

/-- commonWords is the denylist of `_is_valid_username`
(lines 411–433). -/
def commonWords : List String :=
  ["instagram", "photo", "video", "image", "picture", "post", "story",
   "reel", "igtv", "follow", "like", "share", "tag", "comment", "dm",
   "live", "stories",
   "the", "and", "for", "with", "this", "that", "here", "there", "what",
   "when", "where", "how", "why", "who", "all", "any", "can", "now", "new",
   "get",
   "john", "jane", "mike", "sarah", "david", "emily", "chris", "alex",
   "jessica", "michael", "ashley", "daniel", "amanda", "james", "lisa",
   "robert", "jennifer", "william", "elizabeth", "richard", "maria",
   "thomas", "susan", "charles", "nancy",
   "january", "february", "march", "april", "may", "june", "july",
   "august", "september", "october", "november", "december", "jan", "feb",
   "mar", "apr", "jun", "jul", "aug", "sep", "oct", "nov", "dec", "monday",
   "tuesday", "wednesday", "thursday", "friday", "saturday", "sunday",
   "content", "creator", "user", "account", "profile", "page", "feed",
   "explore"]

/-- isValidUsername mirrors `_is_valid_username` (lines 398–442): reject
falsy strings, strings failing the character-class regex, strings longer
than 30 (or shorter than 1) characters, denylisted words
(case-insensitively), and finally strings shorter than 3 characters. -/
def isValidUsername (u : String) : Bool :=
  if u = "" then false
  else if ¬ pyMatchAllowed u then false
  else if u.length > 30 ∨ u.length < 1 then false
  else if pyLower u ∈ commonWords then false
  else if u.length < 3 then false
  else true

/-- C9: every candidate of length 1 or 2 made only of allowed characters
and not in the denylist is rejected by the validator — the final
`len(username) < 3` check imposes a minimum length of 3 beyond the spec's
stated rejection criteria. -/
theorem c9_short_identifiers_rejected :
    ∀ u : String, (u.length = 1 ∨ u.length = 2) →
    (∀ c ∈ u.data, isAllowedChar c = true) →
    pyLower u ∉ commonWords →
    isValidUsername u = false := by
  intro u hlen hchars hword
  have hshort : u.length < 3 := by omega
  unfold isValidUsername
  split_ifs <;> rfl

/-- c9_short_identifiers_rejected_witness evaluates the theorem at the
concrete two-character candidate `"ab"`. -/
theorem c9_short_identifiers_rejected_witness :
    (("ab" : String).length = 1 ∨ ("ab" : String).length = 2) ∧
    (∀ c ∈ ("ab" : String).data, isAllowedChar c = true) ∧
    pyLower "ab" ∉ commonWords ∧
    isValidUsername "ab" = false :=
  ⟨by decide, by decide, by decide,
   c9_short_identifiers_rejected "ab" (by decide) (by decide) (by decide)⟩

end CLI

namespace Iter

/-- IterEntry mirrors the queue dictionaries of
`instagram_iterative_discovery.py` (username, depth, parent,
discovery_path). -/
structure IterEntry where
  username : String
  depth : ℕ
  parent : String
  discoveryPath : String
deriving Repr, DecidableEq

/-- iterTarget is `TARGET_PROFILES = 500`. -/
def iterTarget : ℕ := 500

/-- iterMin is `MIN_FOLLOWERS = 50000`. -/
def iterMin : ℕ := 50000

/-- iterMaxDepth is `MAX_DISCOVERY_DEPTH = 4`. -/
def iterMaxDepth : ℕ := 4

/-- iterWidth is `SIMILAR_ACCOUNTS_PER_USER = 20`. -/
def iterWidth : ℕ := 20

/-- iterPages is `MAX_HASHTAG_PAGES = 5`. -/
def iterPages : ℕ := 5

/-- IterOracles models the remote service of the iterative variant:
`pages n` is the username list extracted from the `n`-th hashtag page
request, `resolve` and `neighbors` are as in the CLI variant, indexed by
the remote-call counter. -/
structure IterOracles where
  pages : ℕ → List String
  resolve : ℕ → String → Option ProfileData
  neighbors : ℕ → String → List String

/-- IterSt is the session state of `IterativeInstagramDiscovery` plus the
ghost `bfsRecordLog` listing the dequeued username each time the BFS phase
records a qualified result. -/
structure IterSt where
  visited : Finset String
  queue : List IterEntry
  results : List ProfileData
  apiCalls : ℕ
  bfsRecordLog : List String

/-- iterInit is the state right after `__init__`. -/
def iterInit : IterSt := ⟨∅, [], [], 0, []⟩

/-- enrichFilter mirrors `_enrich_and_filter_profiles` (lines 275–295):
resolve each extracted user and, when the profile meets the threshold,
append it to `high_follower_profiles` and to the returned qualified list.
Note: no visited-set bookkeeping happens here. -/
def enrichFilter (orc : IterOracles) (src : String) :
    IterSt → List String → IterSt × List String
  | s, [] => (s, [])
  | s, u :: us =>
    if u = "" then enrichFilter orc src s us
    else
      match orc.resolve s.apiCalls u with
      | some pd =>
        if iterMin ≤ pd.followers then
          let s2 : IterSt :=
            { s with
              apiCalls := s.apiCalls + 1
              results := s.results ++
                [{ pd with discoveryPath := src, discoveryDepth := 0 }] }
          let next := enrichFilter orc src s2 us
          (next.1, u :: next.2)
        else enrichFilter orc src { s with apiCalls := s.apiCalls + 1 } us
      | none => enrichFilter orc src { s with apiCalls := s.apiCalls + 1 } us

/-- seedPhase mirrors `_discover_hashtag_seeds` (lines 94–119): up to five
hashtag pages, each one remote page request followed by enrichment;
accumulation stops early when the target is reached. -/
def seedPhase (orc : IterOracles) (hashtag : String) :
    ℕ → ℕ → IterSt → List String → IterSt × List String
  | 0, _, s, acc => (s, acc)
  | Nat.succ remaining, page, s, acc =>
    let s1 : IterSt := { s with apiCalls := s.apiCalls + 1 }
    let enriched := enrichFilter orc
      ("hashtag_#" ++ hashtag ++ "_p" ++ toString page) s1 (orc.pages page)
    let acc2 := acc ++ enriched.2
    if iterTarget ≤ enriched.1.results.length then (enriched.1, acc2)
    else seedPhase orc hashtag remaining (page + 1) enriched.1 acc2

/-- iterSeedPush admits one hashtag seed at depth 0 when unvisited
(lines 72–80). -/
def iterSeedPush (hashtag : String) (t : IterSt) (u : String) : IterSt :=
  if u ∈ t.visited then t
  else
    { t with
      queue := t.queue ++ [⟨u, 0, "hashtag_#" ++ hashtag, "#" ++ hashtag⟩]
      visited := insert u t.visited }

/-- iterSeedEnqueue mirrors the seed-admission loop of
`discover_500_profiles` (lines 71–81). -/
def iterSeedEnqueue (hashtag : String) (s : IterSt) (seeds : List String) :
    IterSt :=
  seeds.foldl (iterSeedPush hashtag) s

/-- iterSimilarPush admits one similar account at the child depth when
truthy and unvisited (lines 255–265). -/
def iterSimilarPush (cur : IterEntry) (t : IterSt) (u : String) : IterSt :=
  if u ≠ "" ∧ u ∉ t.visited then
    { t with
      queue := t.queue ++
        [⟨u, cur.depth + 1, cur.username,
          cur.discoveryPath ++ " → @" ++ cur.username ++ " → @" ++ u⟩]
      visited := insert u t.visited }
  else t

/-- iterBfsIter is one iteration of `_bfs_similar_discovery`
(lines 216–273): dequeue, resolve, record when qualified (also in the
ghost `bfsRecordLog`), break on target, otherwise expand below the fixed
depth limit through up to 20 similar accounts with visited-set
admission. -/
def iterBfsIter (orc : IterOracles) (s : IterSt) : IterSt :=
  match s.queue with
  | [] => s
  | cur :: rest =>
    let s1 : IterSt := { s with queue := rest, apiCalls := s.apiCalls + 1 }
    match orc.resolve s.apiCalls cur.username with
    | none => s1
    | some pd =>
      let s2 : IterSt :=
        if iterMin ≤ pd.followers then
          { s1 with
            results := s1.results ++
              [{ pd with
                  discoveryPath := cur.discoveryPath
                  discoveryDepth := cur.depth }]
            bfsRecordLog := s1.bfsRecordLog ++ [cur.username] }
        else s1
      if iterMin ≤ pd.followers ∧ iterTarget ≤ s2.results.length then s2
      else if cur.depth < iterMaxDepth then
        let cands := (orc.neighbors s2.apiCalls cur.username).take iterWidth
        cands.foldl (iterSimilarPush cur)
          { s2 with apiCalls := s2.apiCalls + 1 }
      else s2

/-- iterBfsLoop is the `while` loop of `_bfs_similar_discovery` with
explicit fuel. -/
def iterBfsLoop (orc : IterOracles) : ℕ → IterSt → IterSt
  | 0, s => s
  | Nat.succ fuel, s =>
    if s.queue ≠ [] ∧ s.results.length < iterTarget then
      iterBfsLoop orc fuel (iterBfsIter orc s)
    else s

/-- discover500 mirrors `discover_500_profiles` (lines 55–92): hashtag
seed phase (with enrichment recording qualified results), seed admission
into the queue, then the BFS phase. -/
def discover500 (orc : IterOracles) (hashtag : String) (fuel : ℕ) : IterSt :=
  let seeded := seedPhase orc hashtag iterPages 1 iterInit []
  iterBfsLoop orc fuel (iterSeedEnqueue hashtag seeded.1 seeded.2)

end Iter

namespace Iter

/-- IterInv is the dedup invariant of the BFS phase: the ghost record log
and the queued usernames are jointly duplicate-free and all lie in the
visited set. -/
def IterInv (s : IterSt) : Prop :=
  (s.bfsRecordLog ++ s.queue.map IterEntry.username).Nodup ∧
  ∀ u ∈ s.bfsRecordLog ++ s.queue.map IterEntry.username, u ∈ s.visited

theorem enrichFilter_untouched (orc : IterOracles) (src : String)
    (users : List String) (s : IterSt) :
    (enrichFilter orc src s users).1.queue = s.queue ∧
    (enrichFilter orc src s users).1.visited = s.visited ∧
    (enrichFilter orc src s users).1.bfsRecordLog = s.bfsRecordLog := by
  induction users generalizing s with
  | nil => simp [enrichFilter]
  | cons u us ih =>
    by_cases hu : u = ""
    · simpa [enrichFilter, hu] using ih s
    · rcases hr : orc.resolve s.apiCalls u with _ | pd
      · simpa [enrichFilter, hu, hr] using
          ih { s with apiCalls := s.apiCalls + 1 }
      · by_cases hf : iterMin ≤ pd.followers
        · have := ih { s with
            apiCalls := s.apiCalls + 1
            results := s.results ++
              [{ pd with discoveryPath := src, discoveryDepth := 0 }] }
          simpa [enrichFilter, hu, hr, hf] using this
        · simpa [enrichFilter, hu, hr, hf] using
            ih { s with apiCalls := s.apiCalls + 1 }

theorem seedPhase_untouched (orc : IterOracles) (hashtag : String)
    (remaining page : ℕ) (s : IterSt) (acc : List String) :
    (seedPhase orc hashtag remaining page s acc).1.queue = s.queue ∧
    (seedPhase orc hashtag remaining page s acc).1.visited = s.visited ∧
    (seedPhase orc hashtag remaining page s acc).1.bfsRecordLog =
      s.bfsRecordLog := by
  induction remaining generalizing page s acc with
  | zero => simp [seedPhase]
  | succ remaining ih =>
    have he := enrichFilter_untouched orc
      ("hashtag_#" ++ hashtag ++ "_p" ++ toString page)
      (orc.pages page) { s with apiCalls := s.apiCalls + 1 }
    by_cases hb : iterTarget ≤
        (enrichFilter orc ("hashtag_#" ++ hashtag ++ "_p" ++ toString page)
          { s with apiCalls := s.apiCalls + 1 } (orc.pages page)).1.results.length
    · simp only [seedPhase, if_pos hb]
      exact ⟨he.1, he.2.1, he.2.2⟩
    · simp only [seedPhase, if_neg hb]
      have hrec := ih (page + 1)
        (enrichFilter orc ("hashtag_#" ++ hashtag ++ "_p" ++ toString page)
          { s with apiCalls := s.apiCalls + 1 } (orc.pages page)).1
        (acc ++ (enrichFilter orc
          ("hashtag_#" ++ hashtag ++ "_p" ++ toString page)
          { s with apiCalls := s.apiCalls + 1 } (orc.pages page)).2)
      exact ⟨hrec.1.trans he.1, hrec.2.1.trans he.2.1,
        hrec.2.2.trans he.2.2⟩

theorem iterSeedPush_inv {hashtag : String} {t : IterSt} {u : String}
    (h : IterInv t) : IterInv (iterSeedPush hashtag t u) := by
  obtain ⟨h1, h2⟩ := h
  unfold iterSeedPush
  by_cases hv : u ∈ t.visited
  · simpa [hv] using ⟨h1, h2⟩
  · rw [if_neg hv]
    constructor
    · simp only [List.map_append, List.map_cons, List.map_nil,
        ← List.append_assoc]
      rw [List.nodup_append]
      refine ⟨h1, List.nodup_singleton _, ?_⟩
      intro a ha hb
      simp only [List.mem_singleton] at hb
      subst hb
      exact hv (h2 a ha)
    · intro v hv'
      simp only [List.map_append, List.map_cons, List.map_nil,
        ← List.append_assoc, List.mem_append, List.mem_singleton] at hv'
      rcases hv' with hv' | rfl
      · exact Finset.mem_insert_of_mem (h2 v (List.mem_append.mpr hv'))
      · exact Finset.mem_insert_self _ _

theorem iterSeedEnqueue_inv {hashtag : String} (seeds : List String)
    {s : IterSt} (h : IterInv s) :
    IterInv (iterSeedEnqueue hashtag s seeds) := by
  induction seeds generalizing s with
  | nil => exact h
  | cons u us ih =>
    have : iterSeedEnqueue hashtag s (u :: us) =
        iterSeedEnqueue hashtag (iterSeedPush hashtag s u) us := rfl
    rw [this]
    exact ih (iterSeedPush_inv h)

theorem iterSimilarPush_inv {cur : IterEntry} {t : IterSt} {u : String}
    (h : IterInv t) : IterInv (iterSimilarPush cur t u) := by
  obtain ⟨h1, h2⟩ := h
  unfold iterSimilarPush
  by_cases hc : u ≠ "" ∧ u ∉ t.visited
  · rw [if_pos hc]
    constructor
    · simp only [List.map_append, List.map_cons, List.map_nil,
        ← List.append_assoc]
      rw [List.nodup_append]
      refine ⟨h1, List.nodup_singleton _, ?_⟩
      intro a ha hb
      simp only [List.mem_singleton] at hb
      subst hb
      exact hc.2 (h2 a ha)
    · intro v hv'
      simp only [List.map_append, List.map_cons, List.map_nil,
        ← List.append_assoc, List.mem_append, List.mem_singleton] at hv'
      rcases hv' with hv' | rfl
      · exact Finset.mem_insert_of_mem (h2 v (List.mem_append.mpr hv'))
      · exact Finset.mem_insert_self _ _
  · rw [if_neg hc]
    exact ⟨h1, h2⟩

theorem iterSimilarFold_inv (cur : IterEntry) (cands : List String)
    {t : IterSt} (h : IterInv t) :
    IterInv (cands.foldl (iterSimilarPush cur) t) := by
  induction cands generalizing t with
  | nil => exact h
  | cons u us ih =>
    rw [List.foldl_cons]
    exact ih (iterSimilarPush_inv h)

theorem iterBfsIter_inv {orc : IterOracles} {s : IterSt} (h : IterInv s) :
    IterInv (iterBfsIter orc s) := by
  obtain ⟨h1, h2⟩ := h
  rcases hq : s.queue with _ | ⟨cur, rest⟩
  · simp only [iterBfsIter, hq]
    exact ⟨h1, h2⟩
  · rw [hq, List.map_cons] at h1 h2
    have h1' : (s.bfsRecordLog ++ (cur.username :: rest.map
        IterEntry.username)).Nodup := h1
    have hdropped : (s.bfsRecordLog ++ rest.map IterEntry.username).Nodup := by
      refine List.Nodup.sublist ?_ h1'
      exact List.Sublist.append_left (List.sublist_cons_self _ _) _
    have hkept : ((s.bfsRecordLog ++ [cur.username]) ++ rest.map
        IterEntry.username).Nodup := by
      rw [List.append_assoc, List.singleton_append]
      exact h1'
    have hmem_dropped : ∀ u ∈ s.bfsRecordLog ++ rest.map IterEntry.username,
        u ∈ s.visited := by
      intro u hu
      refine h2 u ?_
      rcases List.mem_append.mp hu with hu | hu
      · exact List.mem_append.mpr (Or.inl hu)
      · exact List.mem_append.mpr (Or.inr (List.mem_cons_of_mem _ hu))
    have hmem_kept : ∀ u ∈ (s.bfsRecordLog ++ [cur.username]) ++ rest.map
        IterEntry.username, u ∈ s.visited := by
      intro u hu
      rw [List.append_assoc, List.singleton_append] at hu
      exact h2 u hu
    simp only [iterBfsIter, hq]
    rcases hr : orc.resolve s.apiCalls cur.username with _ | pd
    · exact ⟨hdropped, hmem_dropped⟩
    · by_cases hf : iterMin ≤ pd.followers
      · simp only [if_pos hf]
        split_ifs
        · exact ⟨hkept, hmem_kept⟩
        · exact iterSimilarFold_inv cur _ ⟨hkept, hmem_kept⟩
        · exact ⟨hkept, hmem_kept⟩
      · simp only [if_neg hf]
        split_ifs with hA hB
        · exact absurd hA.1 hf
        · exact iterSimilarFold_inv cur _ ⟨hdropped, hmem_dropped⟩
        · exact ⟨hdropped, hmem_dropped⟩

theorem iterBfsLoop_inv {orc : IterOracles} (fuel : ℕ) {s : IterSt}
    (h : IterInv s) : IterInv (iterBfsLoop orc fuel s) := by
  induction fuel generalizing s with
  | zero => exact h
  | succ fuel ih =>
    by_cases hg : s.queue ≠ [] ∧ s.results.length < iterTarget
    · simp only [iterBfsLoop, if_pos hg]
      exact ih (iterBfsIter_inv h)
    · simpa only [iterBfsLoop, if_neg hg] using h

end Iter

namespace Iter

theorem enrichFilter_results_append (orc : IterOracles) (src : String)
    (users : List String) (s : IterSt) :
    ∃ tl, (enrichFilter orc src s users).1.results = s.results ++ tl := by
  induction users generalizing s with
  | nil => exact ⟨[], by simp [enrichFilter]⟩
  | cons u us ih =>
    by_cases hu : u = ""
    · have heq : enrichFilter orc src s (u :: us) = enrichFilter orc src s us := by
        simp [enrichFilter, hu]
      rw [heq]
      exact ih s
    · rcases hr : orc.resolve s.apiCalls u with _ | pd
      · have heq : enrichFilter orc src s (u :: us) =
            enrichFilter orc src { s with apiCalls := s.apiCalls + 1 } us := by
          simp [enrichFilter, hu, hr]
        rw [heq]
        exact ih { s with apiCalls := s.apiCalls + 1 }
      · by_cases hf : iterMin ≤ pd.followers
        · have heq : (enrichFilter orc src s (u :: us)).1 =
              (enrichFilter orc src
                { s with
                  apiCalls := s.apiCalls + 1
                  results := s.results ++
                    [{ pd with discoveryPath := src, discoveryDepth := 0 }] }
                us).1 := by
            simp [enrichFilter, hu, hr, hf]
          obtain ⟨tl, htl⟩ := ih { s with
            apiCalls := s.apiCalls + 1
            results := s.results ++
              [{ pd with discoveryPath := src, discoveryDepth := 0 }] }
          refine ⟨[{ pd with discoveryPath := src, discoveryDepth := 0 }] ++ tl, ?_⟩
          rw [heq, htl]
          simp
        · have heq : enrichFilter orc src s (u :: us) =
              enrichFilter orc src { s with apiCalls := s.apiCalls + 1 } us := by
            simp [enrichFilter, hu, hr, hf]
          rw [heq]
          exact ih { s with apiCalls := s.apiCalls + 1 }

theorem enrichFilter_results_mono (orc : IterOracles) (src : String)
    (users : List String) (s : IterSt) :
    List.IsPrefix s.results (enrichFilter orc src s users).1.results := by
  obtain ⟨tl, htl⟩ := enrichFilter_results_append orc src users s
  rw [htl]
  exact List.prefix_append _ _

theorem iterSimilarFold_results (cur : IterEntry) (cands : List String)
    (t : IterSt) :
    (cands.foldl (iterSimilarPush cur) t).results = t.results := by
  induction cands generalizing t with
  | nil => rfl
  | cons u us ih =>
    rw [List.foldl_cons]
    rw [ih (iterSimilarPush cur t u)]
    unfold iterSimilarPush
    split <;> rfl

theorem iterBfsIter_results_mono (orc : IterOracles) (s : IterSt) :
    List.IsPrefix s.results (iterBfsIter orc s).results := by
  rcases hq : s.queue with _ | ⟨cur, rest⟩
  · simp [iterBfsIter, hq]
  · simp only [iterBfsIter, hq]
    rcases hr : orc.resolve s.apiCalls cur.username with _ | pd
    · simp
    · by_cases hf : iterMin ≤ pd.followers
      · simp only [if_pos hf]
        split_ifs
        · exact List.prefix_append _ _
        · rw [iterSimilarFold_results]
          exact List.prefix_append _ _
        · exact List.prefix_append _ _
      · simp only [if_neg hf]
        split_ifs
        · exact List.prefix_rfl
        · rw [iterSimilarFold_results]
        · exact List.prefix_rfl

theorem iterBfsLoop_results_mono (orc : IterOracles) (fuel : ℕ)
    (s : IterSt) :
    List.IsPrefix s.results (iterBfsLoop orc fuel s).results := by
  induction fuel generalizing s with
  | zero => exact List.prefix_rfl
  | succ fuel ih =>
    by_cases hg : s.queue ≠ [] ∧ s.results.length < iterTarget
    · simp only [iterBfsLoop, if_pos hg]
      exact List.IsPrefix.trans (iterBfsIter_results_mono orc s)
        (ih (iterBfsIter orc s))
    · simp only [iterBfsLoop, if_neg hg]
      exact List.prefix_rfl

/-- C7, amended: the qualified-results collection only ever grows (the
previous results list is a prefix of the later one, at enrichment,
iteration and loop granularity — results are never removed), and the BFS
phase records at most one QualifiedResult per dequeued identifier over the
whole session (the ghost record log of the frontier phase is
duplicate-free).  However, an identifier qualified during seed enrichment
IS recorded a second time when it is later processed from the frontier,
because enrichment neither consults nor updates the visited set for
results (see the counterexample). -/
theorem c7_qualified_amended :
    (∀ orc src users (s : IterSt),
      List.IsPrefix s.results (enrichFilter orc src s users).1.results) ∧
    (∀ orc (s : IterSt),
      List.IsPrefix s.results (iterBfsIter orc s).results) ∧
    (∀ orc fuel (s : IterSt),
      List.IsPrefix s.results (iterBfsLoop orc fuel s).results) ∧
    (∀ orc hashtag fuel,
      ((discover500 orc hashtag fuel).bfsRecordLog).Nodup) :=
  ⟨fun orc src users s => enrichFilter_results_mono orc src users s,
   fun orc s => iterBfsIter_results_mono orc s,
   fun orc fuel s => iterBfsLoop_results_mono orc fuel s,
   fun orc hashtag fuel => by
    have hseed := seedPhase_untouched orc hashtag iterPages 1 iterInit []
    have hinv0 : IterInv (seedPhase orc hashtag iterPages 1 iterInit []).1 := by
      constructor
      · rw [hseed.1, hseed.2.2]
        simp [iterInit]
      · intro u hu
        rw [hseed.1, hseed.2.2] at hu
        simp [iterInit] at hu
    have hinv := @iterBfsLoop_inv orc fuel
      (iterSeedEnqueue hashtag (seedPhase orc hashtag iterPages 1 iterInit []).1
        (seedPhase orc hashtag iterPages 1 iterInit []).2)
      (@iterSeedEnqueue_inv hashtag
        (seedPhase orc hashtag iterPages 1 iterInit []).2
        (seedPhase orc hashtag iterPages 1 iterInit []).1 hinv0)
    have hfin := hinv.1
    exact List.Nodup.sublist (List.sublist_append_left _ _) hfin⟩

/-- c7Oracles drives the double-record counterexample: hashtag page 1
extracts the single account `"u"`, which resolves with 60000 followers;
later pages are empty and nobody has similar accounts. -/
def c7Oracles : IterOracles :=
  ⟨fun p => if p = 1 then ["u"] else [],
   fun _ x =>
     if x = "u" then some ⟨"u", "", 60000, 0, 0, false, false, "", "", 0⟩
     else none,
   fun _ _ => []⟩

/-- C7, counterexample: the identifier `"u"` qualifies once during seed
enrichment and is then admitted to the frontier (enrichment leaves the
visited set untouched), so when it is processed from the frontier its
QualifiedResult is recorded a second time: the session ends with the
qualified list `[u, u]`, refuting "at most one QualifiedResult is ever
created per identifier". -/
theorem c7_qualified_counterexample :
    ((discover500 c7Oracles "luxury" 5).results.map ProfileData.username) =
      ["u", "u"] ∧
    ¬ ((discover500 c7Oracles "luxury" 5).results.map
        ProfileData.username).Nodup := by
  refine ⟨by decide, by decide⟩

end Iter

namespace CLI

/-- insertDesc inserts a profile into a followers-descending list after
every profile with at least as many followers (the stable placement that
Python's `sorted(..., reverse=True)` gives equal keys). -/
def insertDesc (p : ProfileData) : List ProfileData → List ProfileData
  | [] => [p]
  | q :: qs =>
    if p.followers ≤ q.followers then q :: insertDesc p qs
    else p :: q :: qs

/-- sortDesc is `sorted(profiles, key=followers, reverse=True)`: a stable
descending sort by follower count. -/
def sortDesc (profiles : List ProfileData) : List ProfileData :=
  profiles.foldl (fun acc p => insertDesc p acc) []

/-- exportToCsv models `export_to_csv` (lines 681–718): when the
qualified list is empty the function prints "No profiles to export" and
returns WITHOUT writing a file (modelled as `none`); otherwise it writes
one ranked row per profile, sorted by followers descending (modelled as
`some rows`). -/
def exportToCsv (profiles : List ProfileData) :
    Option (List (ℕ × ProfileData)) :=
  if profiles.isEmpty then none
  else some ((sortDesc profiles).enumFrom 1)

theorem insertDesc_length (p : ProfileData) (l : List ProfileData) :
    (insertDesc p l).length = l.length + 1 := by
  induction l with
  | nil => rfl
  | cons q qs ih =>
    unfold insertDesc
    split
    · simp [ih]
    · simp

theorem sortDesc_length (profiles : List ProfileData) :
    (sortDesc profiles).length = profiles.length := by
  have hgen : ∀ (l acc : List ProfileData),
      (l.foldl (fun acc p => insertDesc p acc) acc).length =
        acc.length + l.length := by
    intro l
    induction l with
    | nil => intro acc; simp
    | cons p ps ih =>
      intro acc
      rw [List.foldl_cons, ih (insertDesc p acc), insertDesc_length]
      simp only [List.length_cons]
      omega
  unfold sortDesc
  rw [hgen profiles []]
  simp

/-- C8, amended: the final export writes an output file iff at least one
qualified result was accumulated; with zero results `export_to_csv`
prints a message and returns without writing any file; when it does
write, it writes one ranked row per accumulated result. -/
theorem c8_export_amended :
    ∀ ps : List ProfileData,
      ((exportToCsv ps).isSome ↔ ps ≠ []) ∧
      (∀ rows, exportToCsv ps = some rows → rows.length = ps.length) := by
  intro ps
  constructor
  · unfold exportToCsv
    rcases ps with _ | ⟨p, ps⟩
    · simp
    · simp
  · intro rows hrows
    unfold exportToCsv at hrows
    rcases ps with _ | ⟨p, ps⟩
    · simp at hrows
    · simp only [List.isEmpty_cons, if_neg Bool.false_ne_true,
        Option.some.injEq] at hrows
      rw [← hrows]
      rw [List.enumFrom_length]
      exact sortDesc_length (p :: ps)

/-- c8_export_amended_witness evaluates the amended export theorem on a
concrete one-profile list. -/
theorem c8_export_amended_witness :
    exportToCsv [wPd] = some [(1, wPd)] ∧
    ([((1 : ℕ), wPd)]).length = ([wPd]).length :=
  ⟨by decide, (c8_export_amended [wPd]).2 [(1, wPd)] (by decide)⟩

/-- C8, counterexample: with zero accumulated results the export writes
nothing (`none`), while the claim says a run that accumulated zero
results still writes an output file. -/
theorem c8_export_counterexample : exportToCsv [] = none := rfl

end CLI

namespace Rec

/-- PyVal is the dynamic argument of `_parse_follower_count`: an int, a
str, or any other Python value. -/
inductive PyVal where
  | vint (n : ℤ)
  | vstr (s : String)
  | vother
deriving Repr, DecidableEq

/-- isPyWsChar is Python's numeric-literal whitespace (stripped by
`float()` / `int()`). -/
def isPyWsChar (c : Char) : Bool :=
  [' ', '\t', '\n', '\r', Char.ofNat 11, Char.ofNat 12].contains c

/-- stripPyWs strips leading and trailing whitespace. -/
def stripPyWs (cs : List Char) : List Char :=
  ((cs.dropWhile isPyWsChar).reverse.dropWhile isPyWsChar).reverse

/-- splitSign consumes one optional leading sign; the Bool is "negative".
-/
def splitSign : List Char → Bool × List Char
  | '+' :: cs => (false, cs)
  | '-' :: cs => (true, cs)
  | cs => (false, cs)

/-- digitsUAux consumes a maximal run of decimal digits in which single
underscores may separate two digits (Python numeric-literal grammar);
`pending` records an underscore waiting for a digit, which is pushed back
unconsumed when no digit follows.  Returns the digit values and the
rest. -/
def digitsUAux (acc : List ℕ) (pending : Bool) : List Char → List ℕ × List Char
  | [] => if pending then (acc, ['_']) else (acc, [])
  | c :: cs =>
    if c.isDigit then digitsUAux (acc ++ [c.toNat - 48]) false cs
    else if pending then (acc, '_' :: c :: cs)
    else if c = '_' then digitsUAux acc true cs
    else (acc, c :: cs)

/-- takeDigitsU parses a nonempty underscore-separated digit run. -/
def takeDigitsU (cs : List Char) : Option (List ℕ × List Char) :=
  match cs with
  | c :: _ => if c.isDigit then some (digitsUAux [] false cs) else none
  | [] => none

/-- digitsVal is the value of a digit list. -/
def digitsVal (ds : List ℕ) : ℕ := ds.foldl (fun a d => 10 * a + d) 0

/-- parseMantissa parses `digits [. digits?] | . digits` as an exact
rational. -/
def parseMantissa (cs : List Char) : Option (ℚ × List Char) :=
  match takeDigitsU cs with
  | some (ds, rest) =>
    match rest with
    | '.' :: rest2 =>
      match takeDigitsU rest2 with
      | some (fs, rest3) =>
        some ((digitsVal ds : ℚ) + (digitsVal fs : ℚ) / 10 ^ fs.length, rest3)
      | none => some ((digitsVal ds : ℚ), rest2)
    | _ => some ((digitsVal ds : ℚ), rest)
  | none =>
    match cs with
    | '.' :: rest2 =>
      match takeDigitsU rest2 with
      | some (fs, rest3) =>
        some ((digitsVal fs : ℚ) / 10 ^ fs.length, rest3)
      | none => none
    | _ => none

/-- parseExpPart parses an optional exponent `e/E sign? digits` that must
consume the remainder of the string. -/
def parseExpPart : List Char → Option ℤ
  | [] => some 0
  | e :: rest =>
    if e = 'e' ∨ e = 'E' then
      match splitSign rest with
      | (neg, rest2) =>
        match takeDigitsU rest2 with
        | some (ds, []) =>
          some (if neg then -(digitsVal ds : ℤ) else (digitsVal ds : ℤ))
        | _ => none
    else none

/-- pyFloatLit models CPython's `float(s)` on finite decimal literals,
with the exact rational value of the literal.  CPython's binary rounding
of the value is abstracted away (the claims below concern totality and
raising, not rounded values); the special prefixes `inf`/`nan`, which
`float` accepts, are deliberately treated as unparseable because the
surrounding `int(float(s) * scale)` raises on them exactly as it does on
a parse failure. -/
def pyFloatLit (s : String) : Option ℚ :=
  let cs := stripPyWs s.data
  match splitSign cs with
  | (neg, cs1) =>
    match parseMantissa cs1 with
    | some (m, rest) =>
      match parseExpPart rest with
      | some ex => some ((if neg then -m else m) * (10 : ℚ) ^ ex)
      | none => none
    | none => none

/-- pyIntLit models CPython's `int(s)`. -/
def pyIntLit (s : String) : Option ℤ :=
  let cs := stripPyWs s.data
  match splitSign cs with
  | (neg, cs1) =>
    match takeDigitsU cs1 with
    | some (ds, []) =>
      some (if neg then -(digitsVal ds : ℤ) else (digitsVal ds : ℤ))
    | _ => none

/-- pyTrunc is Python's `int()` on a real number: truncation toward
zero. -/
def pyTrunc (q : ℚ) : ℤ := if 0 ≤ q then ⌊q⌋ else ⌈q⌉

/-- cleanStr is `followers.replace(',', '').replace(' ', '')`. -/
def cleanStr (s : String) : String :=
  String.mk (s.data.filter (fun c => !(c == ',' || c == ' ')))

/-- endsWithChar is `s.endswith(c)` for a single character: the last
character equals `c`. -/
def endsWithChar (s : String) (c : Char) : Bool :=
  s.data.getLast? == some c

/-- dropLastStr is the slice `s[:-1]`. -/
def dropLastStr (s : String) : String := String.mk s.data.dropLast

/-- parseFollowerCount models `_parse_follower_count` (lines 197–219 of
`instagram_recursive_discovery.py`).  `none` models an uncaught exception:
the `K`/`M`/`B` suffix paths compute `int(float(prefix) * scale)` with no
try/except, so an unparseable prefix raises `ValueError` out of the
function; only the plain-string path catches `ValueError` and returns 0. -/
def parseFollowerCount : PyVal → Option ℤ
  | PyVal.vint n => some n
  | PyVal.vstr s0 =>
    let s := cleanStr s0
    if endsWithChar s 'K' then
      (pyFloatLit (dropLastStr s)).map (fun q => pyTrunc (q * 1000))
    else if endsWithChar s 'M' then
      (pyFloatLit (dropLastStr s)).map (fun q => pyTrunc (q * 1000000))
    else if endsWithChar s 'B' then
      (pyFloatLit (dropLastStr s)).map (fun q => pyTrunc (q * 1000000000))
    else
      some (match pyIntLit s with | some n => n | none => 0)
  | PyVal.vother => some 0

end Rec

namespace Rec

/-- C10, counterexample: the claim says every unparseable input (including
malformed suffixed strings) yields 0, but the suffix paths call
`int(float(prefix) * scale)` outside any try/except, so the inputs `"K"`
and `"abcK"` raise `ValueError` (modelled as `none`) instead of returning
0. -/
theorem c10_parser_counterexample :
    parseFollowerCount (PyVal.vstr "K") = none ∧
    parseFollowerCount (PyVal.vstr "abcK") = none := by
  exact ⟨by decide, by decide⟩

/-- C10, amended: the parser is total except on suffixed strings with
unparseable prefixes.  An int input is returned unchanged; any non-int,
non-string input yields 0; and a string input (after comma/space removal)
raises `ValueError` (modelled as `none`) exactly when it ends in
`K`/`M`/`B` and the remaining prefix is not a valid float literal — every
other string input returns an integer (the plain-string path catches its
own `ValueError` and yields 0). -/
theorem c10_parser_amended :
    (∀ n : ℤ, parseFollowerCount (PyVal.vint n) = some n) ∧
    (parseFollowerCount PyVal.vother = some 0) ∧
    (∀ s : String, parseFollowerCount (PyVal.vstr s) = none ↔
      ((endsWithChar (cleanStr s) 'K' ∨ endsWithChar (cleanStr s) 'M' ∨
          endsWithChar (cleanStr s) 'B') ∧
        pyFloatLit (dropLastStr (cleanStr s)) = none)) := by
  refine ⟨fun n => rfl, rfl, ?_⟩
  intro s
  simp only [parseFollowerCount]
  by_cases hK : endsWithChar (cleanStr s) 'K' = true
  · simp [hK, Option.map_eq_none']
  · by_cases hM : endsWithChar (cleanStr s) 'M' = true
    · simp [hK, hM, Option.map_eq_none']
    · by_cases hB : endsWithChar (cleanStr s) 'B' = true
      · simp [hK, hM, hB, Option.map_eq_none']
      · simp [hK, hM, hB]

end Rec
